import Mathlib

/-!
Shallow embedding of the `use-base64` library (src/encode.ts, src/decode.ts,
src/wrap.ts) together with proofs about its specification.

Bytes are modelled as `List Nat`; a `Uint8Array` guarantees every element is
below 256, which appears as the hypothesis `∀ b ∈ B, b < 256` in theorems.
JavaScript's 32-bit arithmetic `(a << 16) | (b << 8) | c` on byte values is
translated to `a * 65536 + b * 256 + c`, and `(x >> k) & 63` (as well as the
unsigned `>>>`) to `x / 2 ^ k % 64`: for the operand sizes occurring here
(below `2 ^ 24`) these agree exactly.  Strings are modelled as `List Char`,
and thrown `Error`s as `Except DecodeError`.
-/

namespace UseBase64

abbrev Bytes := List Nat

/-! ### Alphabets and lookup tables (decode.ts lines 4-22, encode.ts lines 5-6) -/

/-- Standard Base64 alphabet (RFC 4648, section 4). -/
def B64_STD : List Char := "ABCDEFGHIJKLMNOPQRSTUVWXYZabcdefghijklmnopqrstuvwxyz0123456789+/".toList

/-- URL-safe Base64 alphabet (RFC 4648, section 5). -/
def B64_URL : List Char := "ABCDEFGHIJKLMNOPQRSTUVWXYZabcdefghijklmnopqrstuvwxyz0123456789-_".toList

/-- Build a lookup table for Base64 characters to indices (0..63); models the
`Record<string, number>` built by `createLookupTable` in decode.ts (its
alphabets have no duplicate characters, so first index = stored index). -/
def createLookupTable (alphabet : List Char) (ch : Char) : Option Nat :=
  let i := alphabet.indexOf ch
  if i < alphabet.length then some i else none

/-- Lookup table for the standard alphabet (`B64_STD_LOOKUP` in decode.ts). -/
def B64_STD_LOOKUP : Char → Option Nat := createLookupTable B64_STD

/-- Lookup table for the URL-safe alphabet (`B64_URL_LOOKUP` in decode.ts). -/
def B64_URL_LOOKUP : Char → Option Nat := createLookupTable B64_URL

/-! ### Option records (types.ts) -/

/-- The `Base64Variant` union type of types.ts. -/
inductive Base64Variant
  | standard
  | url
deriving DecidableEq

/-- The `PaddingOption` union type of types.ts. -/
inductive PaddingOption
  | preserve
  | strip
deriving DecidableEq

/-- Encoding options (types.ts `Base64Options`); `none` models an absent
field.  `wrap` is `false | number` in the source: `none` models both `false`
and an absent field (neither passes the `options?.wrap &&
typeof options.wrap === "number"` guard), `some w` models a number. -/
structure Base64Options where
  variant : Option Base64Variant := none
  padding : Option PaddingOption := none
  wrap : Option Int := none

/-- Decoding options (types.ts `DecodeOptions`); only `loose` is consulted by
`decodeBase64ToBytes`. -/
structure DecodeOptions where
  loose : Bool := false

/-- Errors thrown by `decodeBase64ToBytes`, one constructor per distinct
`throw new Error(...)` site in decode.ts. -/
inductive DecodeError
  | mixedAlphabet
  | invalidLength
  | invalidPadding
  | invalidCharacter (pos : Nat)
  | nonCanonical
deriving DecidableEq

deriving instance DecidableEq for Except

/-! ### wrap.ts -/

/-- Loop body of `wrapAt` (wrap.ts lines 7-10): `for (let i = 0;
i < input.length; i += width)` appending `input.slice(i, i + width)` and a
line break whenever `i + width < input.length`.  The positivity of the width
is guaranteed by the early return in `wrapAt` and is carried as a hypothesis
for termination. -/
def wrapBody (input : List Char) (w : Nat) (hw : 0 < w) (i : Nat) : List Char :=
  if _h : i < input.length then
    ((input.drop i).take w) ++
      (if i + w < input.length then ['\n'] else []) ++ wrapBody input w hw (i + w)
  else []
termination_by input.length - i
decreasing_by omega

/-- `wrapAt` (wrap.ts): `none` models an absent/`undefined` width; the guard
`!width || width <= 0` collapses to `w ≤ 0` for an integer width. -/
def wrapAt (input : List Char) (width : Option Int) : List Char :=
  match width with
  | none => input
  | some w => if h : w ≤ 0 then input else wrapBody input w.toNat (by omega) 0

/-! ### encode.ts -/

/-- One 3-byte group encoded as 4 Base64 characters: the body shared by
`encodeChunk` (encode.ts lines 52-57), the tail handling of
`encodeBase64FromBytes`, and the loop of `encodeBytesToBase64Raw`
(decode.ts lines 40-52), all of which compute
`triple = (a << 16) | (b << 8) | c` and index the table with
`(triple >> 18) & 63`, `(triple >> 12) & 63`, `(triple >> 6) & 63`,
`triple & 63`. -/
def encGroup (table : List Char) (a b c : Nat) : List Char :=
  let triple := a * 65536 + b * 256 + c
  [table.getD (triple / 262144 % 64) 'A',
   table.getD (triple / 4096 % 64) 'A',
   table.getD (triple / 64 % 64) 'A',
   table.getD (triple % 64) 'A']

/-- `encodeChunk` (encode.ts lines 50-60): encodes the 3-byte groups at
indices `start, start + 3, ...` strictly below `fin`.  Out-of-range reads
(`bytes[i]` = `undefined`) cannot occur at call sites; `getD _ 0` stands for
the in-range `bytes[i]`. -/
def encodeChunk (bytes : Bytes) (start fin : Nat) (table : List Char) : List Char :=
  if _h : start < fin then
    encGroup table (bytes.getD start 0) (bytes.getD (start + 1) 0) (bytes.getD (start + 2) 0)
      ++ encodeChunk bytes (start + 3) fin table
  else []
termination_by fin - start
decreasing_by omega

/-- The `while (i + 3 <= len)` loop of `encodeBase64FromBytes` (encode.ts
lines 18-23) with `chunkSize = 0x8000`; returns the accumulated output
together with the final value of `i`. -/
def encodeLoopChunks (bytes : Bytes) (table : List Char) (i : Nat) : List Char × Nat :=
  if _h : i + 3 ≤ bytes.length then
    let fin := min (i + (32768 - 32768 % 3)) (bytes.length - bytes.length % 3)
    let rest := encodeLoopChunks bytes table fin
    (encodeChunk bytes i fin table ++ rest.1, rest.2)
  else ([], i)
termination_by bytes.length - i
decreasing_by omega

/-- Removal of trailing `=` characters: `output.replace(/=+$/u, "")`
(encode.ts line 42) and `.replace(/=+$/, "")` (decode.ts line 167). -/
def stripTrailingEq : List Char → List Char
  | [] => []
  | c :: rest =>
    if c = '=' ∧ stripTrailingEq rest = [] then [] else c :: stripTrailingEq rest

/-- `encodeBase64FromBytes` (encode.ts lines 11-45). -/
def encodeBase64FromBytes (bytes : Bytes) (options : Base64Options) : List Char :=
  let table := if options.variant = some Base64Variant.url then B64_URL else B64_STD
  let lr := encodeLoopChunks bytes table 0
  let i := lr.2
  let rem := bytes.length - i
  let output := lr.1 ++
    (if rem > 0 then
      let a := bytes.getD i 0
      let b := if rem = 2 then bytes.getD (i + 1) 0 else 0
      let triple := a * 65536 + b * 256
      [table.getD (triple / 262144 % 64) 'A', table.getD (triple / 4096 % 64) 'A'] ++
        (if rem = 2 then [table.getD (triple / 64 % 64) 'A', '='] else ['=', '='])
    else [])
  let output := if options.padding = some PaddingOption.strip then stripTrailingEq output else output
  match options.wrap with
  | some w => if w = 0 then output else wrapAt output (some w)
  | none => output

/-! ### decode.ts -/

/-- The `while (i < bytes.length)` loop of `encodeBytesToBase64Raw`
(decode.ts lines 40-52): reads three bytes at a time, substituting 0 for
out-of-range reads (`bytes[i++] ?? 0`). -/
def rawLoop (alphabet : List Char) : Bytes → List Char
  | [] => []
  | [a] => encGroup alphabet a 0 0
  | [a, b] => encGroup alphabet a b 0
  | a :: b :: c :: rest => encGroup alphabet a b c ++ rawLoop alphabet rest

/-- `encodeBytesToBase64Raw` (decode.ts lines 35-65): the loop followed by
the padding fixup replacing the last one or two characters by `=`
(`out.slice(0, -2) + "=="` resp. `out.slice(0, -1) + "="`). -/
def encodeBytesToBase64Raw (bytes : Bytes) (alphabet : List Char) : List Char :=
  let out := rawLoop alphabet bytes
  let md := bytes.length % 3
  if md = 1 then out.dropLast.dropLast ++ ['=', '=']
  else if md = 2 then out.dropLast ++ ['=']
  else out

/-- Whitespace as matched by the JavaScript regex class `\s`. -/
def isJsWhitespace (ch : Char) : Bool :=
  let n := ch.toNat
  n = 9 || n = 10 || n = 11 || n = 12 || n = 13 || n = 32 || n = 160 || n = 5760 ||
    (8192 ≤ n && n ≤ 8202) || n = 8232 || n = 8233 || n = 8239 || n = 8287 ||
    n = 12288 || n = 65279

/-- `input.replace(/\s+/g, "")` (decode.ts line 93). -/
def cleanWs (l : List Char) : List Char := l.filter (fun ch => !isJsWhitespace ch)

/-- `/[-_]/.test(cleaned)` (decode.ts line 96). -/
def hasUrlChars (l : List Char) : Bool := l.any (fun ch => ch = '-' || ch = '_')

/-- `/[+/]/.test(cleaned)` (decode.ts line 97). -/
def hasStdChars (l : List Char) : Bool := l.any (fun ch => ch = '+' || ch = '/')

/-- Validation of `=` placement when the cleaned length is already a multiple
of 4 (decode.ts lines 127-133): if `=` occurs, the tail of the string from
its first occurrence must be exactly `=` or `==`. -/
def validEqTail (l : List Char) : Bool :=
  if l.contains '=' then
    let tail := l.drop (l.findIdx (fun ch => ch = '='))
    decide (tail = ['='] ∨ tail = ['=', '='])
  else true

/-- Number of padding characters as determined by decode.ts line 140:
`padded.endsWith("==") ? 2 : padded.endsWith("=") ? 1 : 0`. -/
def padCount (l : List Char) : Nat :=
  if l.reverse.take 2 = ['=', '='] then 2 else if l.reverse.take 1 = ['='] then 1 else 0

/-- The decode loop of `decodeBase64ToBytes` (decode.ts lines 144-161):
4 characters to 3 bytes, with `=` read as 0 in the last two positions of a
group; any character missing from the lookup table aborts with the group's
start index `i`.  A trailing group of fewer than 4 characters (impossible at
the call site, where the length is a multiple of 4) reads `undefined`, whose
lookup is also `undefined`, hence the same error.  The caller truncates the
decoded stream to `outputLen`, modelling the `out < outputLen` write guard
on the preallocated `Uint8Array`. -/
def decodeGroups (lookup : Char → Option Nat) (i : Nat) : List Char → Except DecodeError Bytes
  | p0 :: p1 :: p2 :: p3 :: rest =>
    let a := lookup p0
    let b := lookup p1
    let c := if p2 = '=' then some 0 else lookup p2
    let d := if p3 = '=' then some 0 else lookup p3
    match a, b, c, d with
    | some a, some b, some c, some d =>
      let triple := a * 262144 + b * 4096 + c * 64 + d
      match decodeGroups lookup (i + 4) rest with
      | .error e => .error e
      | .ok tl => .ok ([triple / 65536 % 256, triple / 256 % 256, triple % 256] ++ tl)
    | _, _, _, _ => .error (.invalidCharacter i)
  | [] => .ok []
  | _ => .error (.invalidCharacter i)

/-- `decodeBase64ToBytes` (decode.ts lines 88-174). -/
def decodeBase64ToBytes (input : List Char) (opts : DecodeOptions := {}) :
    Except DecodeError Bytes :=
  if input = [] then .ok []
  else
    let cleaned := cleanWs input
    if hasUrlChars cleaned && hasStdChars cleaned then .error .mixedAlphabet
    else
      let lookup := if hasUrlChars cleaned then B64_URL_LOOKUP else B64_STD_LOOKUP
      let alph := if hasUrlChars cleaned then B64_URL else B64_STD
      let md := cleaned.length % 4
      let step : Except DecodeError (List Char × Bool) :=
        if opts.loose then
          if md = 1 then .error .invalidLength
          else .ok (if md = 0 then cleaned else cleaned ++ List.replicate (4 - md) '=', false)
        else
          if md = 1 then .error .invalidLength
          else if md = 2 ∨ md = 3 then .ok (cleaned ++ List.replicate (4 - md) '=', true)
          else if validEqTail cleaned then .ok (cleaned, false)
          else .error .invalidPadding
      match step with
      | .error e => .error e
      | .ok (padded, verifyCanonical) =>
        let outputLen := padded.length / 4 * 3 - padCount padded
        match decodeGroups lookup 0 padded with
        | .error e => .error e
        | .ok allBytes =>
          let output := allBytes.take outputLen
          if !opts.loose && verifyCanonical then
            if stripTrailingEq (encodeBytesToBase64Raw output alph) = cleaned then .ok output
            else .error .nonCanonical
          else .ok output

/-! ### Facts about the two alphabets, established by evaluation -/

theorem lookup_std_getD : ∀ s < 64, B64_STD_LOOKUP (B64_STD.getD s 'A') = some s := by decide

theorem lookup_url_getD : ∀ s < 64, B64_URL_LOOKUP (B64_URL.getD s 'A') = some s := by decide

theorem std_char_props : ∀ s < 64,
    isJsWhitespace (B64_STD.getD s 'A') = false ∧ B64_STD.getD s 'A' ≠ '=' ∧
      B64_STD.getD s 'A' ≠ '-' ∧ B64_STD.getD s 'A' ≠ '_' := by decide

theorem url_char_props : ∀ s < 64,
    isJsWhitespace (B64_URL.getD s 'A') = false ∧ B64_URL.getD s 'A' ≠ '=' ∧
      B64_URL.getD s 'A' ≠ '+' ∧ B64_URL.getD s 'A' ≠ '/' := by decide

theorem url_std_agree : ∀ s < 64, s ≠ 62 → s ≠ 63 →
    B64_URL.getD s 'A' = B64_STD.getD s 'A' := by decide

theorem url_dash_iff : ∀ s < 64,
    (B64_URL.getD s 'A' = '-' ∨ B64_URL.getD s 'A' = '_') ↔ (s = 62 ∨ s = 63) := by decide

/-! ### Structure of the raw encoder -/

theorem rawLoop_cons3 (tbl : List Char) (a b c : Nat) (r : Bytes) :
    rawLoop tbl (a :: b :: c :: r) = encGroup tbl a b c ++ rawLoop tbl r := by
  cases r with
  | nil => rfl
  | cons x r => cases r <;> rfl

theorem length_encGroup (tbl : List Char) (a b c : Nat) : (encGroup tbl a b c).length = 4 := rfl

theorem length_rawLoop (tbl : List Char) (l : Bytes) :
    (rawLoop tbl l).length = 4 * ((l.length + 2) / 3) := by
  induction l using rawLoop.induct tbl with
  | case1 => rfl
  | case2 a => simp [rawLoop, length_encGroup]
  | case3 a b => simp [rawLoop, length_encGroup]
  | case4 a b c r ih =>
    rw [rawLoop_cons3, List.length_append, length_encGroup, ih]
    simp only [List.length_cons]
    omega

theorem rawLoop_append3 (tbl : List Char) (l1 l2 : Bytes) (h : l1.length % 3 = 0) :
    rawLoop tbl (l1 ++ l2) = rawLoop tbl l1 ++ rawLoop tbl l2 := by
  induction l1 using rawLoop.induct tbl with
  | case1 => simp [rawLoop]
  | case2 a => simp at h
  | case3 a b => simp at h
  | case4 a b c r ih =>
    have hr : r.length % 3 = 0 := by simp only [List.length_cons] at h; omega
    simp only [List.cons_append, rawLoop_cons3, ih hr, List.append_assoc]

theorem dropLast_append_ne_nil {α : Type} (l1 l2 : List α) (h : l2 ≠ []) :
    (l1 ++ l2).dropLast = l1 ++ l2.dropLast := by
  rw [List.dropLast_append]
  simp [List.isEmpty_iff, h]

theorem raw_nil (tbl : List Char) : encodeBytesToBase64Raw [] tbl = [] := rfl

theorem raw_cons3 (tbl : List Char) (a b c : Nat) (r : Bytes) :
    encodeBytesToBase64Raw (a :: b :: c :: r) tbl =
      encGroup tbl a b c ++ encodeBytesToBase64Raw r tbl := by
  unfold encodeBytesToBase64Raw
  rw [rawLoop_cons3]
  have hmod : (a :: b :: c :: r).length % 3 = r.length % 3 := by
    simp only [List.length_cons]; omega
  rw [hmod]
  have hlen := length_rawLoop tbl r
  have h03 : r.length % 3 = 0 ∨ r.length % 3 = 1 ∨ r.length % 3 = 2 := by omega
  rcases h03 with h3 | h3 | h3 <;> rw [h3]
  · simp
  · have hr : r ≠ [] := by rintro rfl; simp at h3
    have hpos : r.length ≥ 1 := List.length_pos.mpr hr
    have h4 : (rawLoop tbl r).length ≥ 4 := by rw [hlen]; omega
    have h1 : rawLoop tbl r ≠ [] := by
      intro he; rw [he] at h4; simp at h4
    have h2 : (rawLoop tbl r).dropLast ≠ [] := by
      intro he
      have := congrArg List.length he
      rw [List.length_dropLast] at this
      simp at this; omega
    norm_num
    rw [dropLast_append_ne_nil _ _ h1, dropLast_append_ne_nil _ _ h2, List.append_assoc]
  · have hr : r ≠ [] := by rintro rfl; simp at h3
    have hpos : r.length ≥ 1 := List.length_pos.mpr hr
    have h4 : (rawLoop tbl r).length ≥ 4 := by rw [hlen]; omega
    have h1 : rawLoop tbl r ≠ [] := by
      intro he; rw [he] at h4; simp at h4
    norm_num
    rw [dropLast_append_ne_nil _ _ h1, List.append_assoc]

theorem raw_one (tbl : List Char) (a : Nat) :
    encodeBytesToBase64Raw [a] tbl =
      [tbl.getD (a * 65536 / 262144 % 64) 'A', tbl.getD (a * 65536 / 4096 % 64) 'A',
        '=', '='] := by
  simp [encodeBytesToBase64Raw, rawLoop, encGroup, List.dropLast]

theorem raw_two (tbl : List Char) (a b : Nat) :
    encodeBytesToBase64Raw [a, b] tbl =
      [tbl.getD ((a * 65536 + b * 256) / 262144 % 64) 'A',
       tbl.getD ((a * 65536 + b * 256) / 4096 % 64) 'A',
       tbl.getD ((a * 65536 + b * 256) / 64 % 64) 'A', '='] := by
  simp [encodeBytesToBase64Raw, rawLoop, encGroup, List.dropLast]

/-! ### The chunked encoder loop computes the straight-line encoding -/

theorem encodeChunk_stop (bytes : Bytes) (tbl : List Char) (i fin : Nat) (h : ¬ i < fin) :
    encodeChunk bytes i fin tbl = [] := by
  rw [encodeChunk, dif_neg h]

theorem encodeChunk_step (bytes : Bytes) (tbl : List Char) (i fin : Nat) (h : i < fin) :
    encodeChunk bytes i fin tbl =
      encGroup tbl (bytes.getD i 0) (bytes.getD (i + 1) 0) (bytes.getD (i + 2) 0)
        ++ encodeChunk bytes (i + 3) fin tbl := by
  rw [encodeChunk, dif_pos h]

theorem encodeChunk_eq_rawLoop (bytes : Bytes) (tbl : List Char) :
    ∀ n i fin, fin - i ≤ n → fin ≤ bytes.length → 3 ∣ (fin - i) →
      encodeChunk bytes i fin tbl = rawLoop tbl ((bytes.drop i).take (fin - i)) := by
  intro n
  induction n with
  | zero =>
    intro i fin hn _ _
    have : fin - i = 0 := by omega
    rw [this, encodeChunk_stop _ _ _ _ (by omega)]
    simp [rawLoop]
  | succ n ih =>
    intro i fin hn hfin hdvd
    by_cases h : i < fin
    · have h3 : i + 3 ≤ fin := by omega
      have hi0 : i < bytes.length := by omega
      have hi1 : i + 1 < bytes.length := by omega
      have hi2 : i + 2 < bytes.length := by omega
      rw [encodeChunk_step _ _ _ _ h]
      rw [ih (i + 3) fin (by omega) hfin (by omega)]
      have hd0 : bytes.drop i = bytes[i] :: bytes.drop (i + 1) := List.drop_eq_getElem_cons hi0
      have hd1 : bytes.drop (i + 1) = bytes[i+1] :: bytes.drop (i + 2) := List.drop_eq_getElem_cons hi1
      have hd2 : bytes.drop (i + 2) = bytes[i+2] :: bytes.drop (i + 3) := List.drop_eq_getElem_cons hi2
      have hfi : fin - i = (fin - (i + 3)) + 1 + 1 + 1 := by omega
      rw [hd0, hd1, hd2, hfi, List.take_succ_cons, List.take_succ_cons, List.take_succ_cons,
        rawLoop_cons3, List.getD_eq_getElem _ _ hi0, List.getD_eq_getElem _ _ hi1,
        List.getD_eq_getElem _ _ hi2]
    · have : fin - i = 0 := by omega
      rw [encodeChunk_stop _ _ _ _ h, this]
      simp [rawLoop]

theorem encodeChunk_append (bytes : Bytes) (tbl : List Char) :
    ∀ n i mid fin, mid - i ≤ n → i ≤ mid → mid ≤ fin → 3 ∣ (mid - i) →
      encodeChunk bytes i mid tbl ++ encodeChunk bytes mid fin tbl =
        encodeChunk bytes i fin tbl := by
  intro n
  induction n with
  | zero =>
    intro i mid fin hn him hmf _
    have : i = mid := by omega
    subst this
    rw [encodeChunk_stop _ _ _ _ (by omega)]
    simp
  | succ n ih =>
    intro i mid fin hn him hmf hdvd
    by_cases h : i < mid
    · have h3 : i + 3 ≤ mid := by omega
      rw [encodeChunk_step _ _ i mid h, encodeChunk_step _ _ i fin (by omega),
        List.append_assoc, ih (i + 3) mid fin (by omega) (by omega) hmf (by omega)]
    · have : i = mid := by omega
      subst this
      rw [encodeChunk_stop _ _ _ _ h]
      simp

theorem encodeLoopChunks_spec (bytes : Bytes) (tbl : List Char) :
    ∀ n i, bytes.length - i ≤ n → i ≤ bytes.length - bytes.length % 3 →
      3 ∣ (bytes.length - bytes.length % 3 - i) →
      encodeLoopChunks bytes tbl i =
        (encodeChunk bytes i (bytes.length - bytes.length % 3) tbl,
         bytes.length - bytes.length % 3) := by
  intro n
  induction n with
  | zero =>
    intro i hn hi hdvd
    have hle : ¬ i + 3 ≤ bytes.length := by omega
    have : i = bytes.length - bytes.length % 3 := by omega
    rw [encodeLoopChunks, dif_neg hle, encodeChunk_stop _ _ _ _ (by omega), ← this]
  | succ n ih =>
    intro i hn hi hdvd
    by_cases h : i + 3 ≤ bytes.length
    · rw [encodeLoopChunks, dif_pos h]
      have h32766 : 32768 - 32768 % 3 = 32766 := by norm_num
      dsimp only
      rw [h32766]
      have hM1 : i < i + 32766 := by omega
      have hM2 : i < bytes.length - bytes.length % 3 := by omega
      have hfin_pos : i < min (i + 32766) (bytes.length - bytes.length % 3) := by omega
      have hfin_le : min (i + 32766) (bytes.length - bytes.length % 3) ≤
          bytes.length - bytes.length % 3 := min_le_right _ _
      have hdvd2 : 3 ∣ (bytes.length - bytes.length % 3 -
          min (i + 32766) (bytes.length - bytes.length % 3)) := by
        rcases le_total (i + 32766) (bytes.length - bytes.length % 3) with h1 | h1
        · rw [min_eq_left h1]; omega
        · rw [min_eq_right h1]; omega
      rw [ih _ (by omega) hfin_le hdvd2]
      have hdvd3 : 3 ∣ (min (i + 32766) (bytes.length - bytes.length % 3) - i) := by
        rcases le_total (i + 32766) (bytes.length - bytes.length % 3) with h1 | h1
        · rw [min_eq_left h1]; omega
        · rw [min_eq_right h1]; omega
      rw [encodeChunk_append bytes tbl (bytes.length - bytes.length % 3) i _ _
        (by omega) (by omega) hfin_le hdvd3]
    · rw [encodeLoopChunks, dif_neg h]
      have : i = bytes.length - bytes.length % 3 := by omega
      rw [encodeChunk_stop _ _ _ _ (by omega), ← this]

theorem encGroup_explicit (tbl : List Char) (a b c : Nat) :
    encGroup tbl a b c =
      [tbl.getD ((a * 65536 + b * 256 + c) / 262144 % 64) 'A',
       tbl.getD ((a * 65536 + b * 256 + c) / 4096 % 64) 'A',
       tbl.getD ((a * 65536 + b * 256 + c) / 64 % 64) 'A',
       tbl.getD ((a * 65536 + b * 256 + c) % 64) 'A'] := rfl

theorem dropLast_append4 {x : List Char} {c0 c1 c2 c3 : Char} :
    (x ++ [c0, c1, c2, c3]).dropLast = x ++ [c0, c1, c2] := by
  rw [show x ++ [c0, c1, c2, c3] = (x ++ [c0, c1, c2]) ++ [c3] by simp, List.dropLast_concat]

theorem dropLast_append3 {x : List Char} {c0 c1 c2 : Char} :
    (x ++ [c0, c1, c2]).dropLast = x ++ [c0, c1] := by
  rw [show x ++ [c0, c1, c2] = (x ++ [c0, c1]) ++ [c2] by simp, List.dropLast_concat]

theorem raw_concat_one (tbl : List Char) (l : Bytes) (a : Nat) (h : l.length % 3 = 0) :
    encodeBytesToBase64Raw (l ++ [a]) tbl =
      rawLoop tbl l ++
        [tbl.getD ((a * 65536 + 0 * 256) / 262144 % 64) 'A',
         tbl.getD ((a * 65536 + 0 * 256) / 4096 % 64) 'A', '=', '='] := by
  unfold encodeBytesToBase64Raw
  have hlen : (l ++ [a]).length % 3 = 1 := by simp; omega
  rw [hlen, if_pos rfl, rawLoop_append3 _ _ _ h,
    show rawLoop tbl [a] = encGroup tbl a 0 0 from rfl, encGroup_explicit,
    dropLast_append4, dropLast_append3]
  have e : a * 65536 + 0 * 256 + 0 = a * 65536 + 0 * 256 := by ring
  rw [e]
  simp

theorem raw_concat_two (tbl : List Char) (l : Bytes) (a b : Nat) (h : l.length % 3 = 0) :
    encodeBytesToBase64Raw (l ++ [a, b]) tbl =
      rawLoop tbl l ++
        [tbl.getD ((a * 65536 + b * 256) / 262144 % 64) 'A',
         tbl.getD ((a * 65536 + b * 256) / 4096 % 64) 'A',
         tbl.getD ((a * 65536 + b * 256) / 64 % 64) 'A', '='] := by
  unfold encodeBytesToBase64Raw
  have hlen : (l ++ [a, b]).length % 3 = 2 := by simp; omega
  rw [hlen, if_neg (by norm_num : ¬ (2:Nat) = 1), if_pos (rfl : (2:Nat) = 2),
    rawLoop_append3 _ _ _ h,
    show rawLoop tbl [a, b] = encGroup tbl a b 0 from rfl, encGroup_explicit,
    dropLast_append4]
  have e : a * 65536 + b * 256 + 0 = a * 65536 + b * 256 := by ring
  rw [e]
  simp

/-- The full equivalence of the batched encoder with the straight-line
re-encoder for unwrapped output: stripping is applied exactly when the
`padding: "strip"` option is set. -/
theorem encodeBase64FromBytes_eq (bytes : Bytes) (v : Option Base64Variant)
    (p : Option PaddingOption) :
    encodeBase64FromBytes bytes ⟨v, p, none⟩ =
      (if p = some PaddingOption.strip
        then stripTrailingEq (encodeBytesToBase64Raw bytes
          (if v = some Base64Variant.url then B64_URL else B64_STD))
        else encodeBytesToBase64Raw bytes
          (if v = some Base64Variant.url then B64_URL else B64_STD)) := by
  set tbl := if v = some Base64Variant.url then B64_URL else B64_STD with htbl
  have hMle : bytes.length - bytes.length % 3 ≤ bytes.length := by omega
  have hMdvd : 3 ∣ (bytes.length - bytes.length % 3) := by omega
  have hloop := encodeLoopChunks_spec bytes tbl bytes.length 0 (by omega) (by omega)
    (by simpa using hMdvd)
  have hchunk := encodeChunk_eq_rawLoop bytes tbl bytes.length 0
    (bytes.length - bytes.length % 3) (by omega) hMle (by simpa using hMdvd)
  simp only [List.drop_zero, Nat.sub_zero] at hchunk
  simp only [encodeBase64FromBytes]
  rw [← htbl, hloop]
  simp only [hchunk]
  have hrem : bytes.length - (bytes.length - bytes.length % 3) = bytes.length % 3 := by omega
  rw [hrem]
  have hlt : (bytes.take (bytes.length - bytes.length % 3)).length =
      bytes.length - bytes.length % 3 := by
    rw [List.length_take]; omega
  have h03 : bytes.length % 3 = 0 ∨ bytes.length % 3 = 1 ∨ bytes.length % 3 = 2 := by omega
  rcases h03 with h3 | h3 | h3
  · rw [if_neg (by omega : ¬ bytes.length % 3 > 0), List.append_nil]
    have hX : rawLoop tbl (bytes.take (bytes.length - bytes.length % 3)) =
        encodeBytesToBase64Raw bytes tbl := by
      rw [show bytes.length - bytes.length % 3 = bytes.length by omega, List.take_length]
      unfold encodeBytesToBase64Raw
      rw [h3]
      norm_num
    rw [hX]
  · rw [if_pos (by omega : bytes.length % 3 > 0),
      if_neg (by omega : ¬ bytes.length % 3 = 2), if_neg (by omega : ¬ bytes.length % 3 = 2)]
    have hdrop : (bytes.drop (bytes.length - bytes.length % 3)).length = 1 := by
      rw [List.length_drop]; omega
    obtain ⟨a, ha⟩ : ∃ a, bytes.drop (bytes.length - bytes.length % 3) = [a] := by
      rcases he : bytes.drop (bytes.length - bytes.length % 3) with _ | ⟨a, _ | ⟨b, r⟩⟩ <;>
        rw [he] at hdrop <;> simp at hdrop <;> try exact ⟨a, rfl⟩
    have hsplit : bytes =
        bytes.take (bytes.length - bytes.length % 3) ++ [a] := by
      conv_lhs => rw [← List.take_append_drop (bytes.length - bytes.length % 3) bytes]
      rw [ha]
    have hgetD : bytes.getD (bytes.length - bytes.length % 3) 0 = a := by
      rw [List.getD_eq_getElem?_getD,
        show bytes.length - bytes.length % 3 = (bytes.length - bytes.length % 3) + 0 by omega,
        ← List.getElem?_drop, ha]
      rfl
    rw [hgetD]
    conv_rhs => rw [hsplit]
    rw [raw_concat_one tbl _ a (by rw [hlt]; omega)]
    simp
  · rw [if_pos (by omega : bytes.length % 3 > 0),
      if_pos (h3 : bytes.length % 3 = 2), if_pos (h3 : bytes.length % 3 = 2)]
    have hdrop : (bytes.drop (bytes.length - bytes.length % 3)).length = 2 := by
      rw [List.length_drop]; omega
    obtain ⟨a, b, hab⟩ : ∃ a b,
        bytes.drop (bytes.length - bytes.length % 3) = [a, b] := by
      rcases he : bytes.drop (bytes.length - bytes.length % 3) with
        _ | ⟨a, _ | ⟨b, _ | ⟨c, r⟩⟩⟩ <;>
        rw [he] at hdrop <;> simp at hdrop <;> try exact ⟨a, b, rfl⟩
    have hsplit : bytes =
        bytes.take (bytes.length - bytes.length % 3) ++ [a, b] := by
      conv_lhs => rw [← List.take_append_drop (bytes.length - bytes.length % 3) bytes]
      rw [hab]
    have hgetD : bytes.getD (bytes.length - bytes.length % 3) 0 = a := by
      rw [List.getD_eq_getElem?_getD,
        show bytes.length - bytes.length % 3 = (bytes.length - bytes.length % 3) + 0 by omega,
        ← List.getElem?_drop, hab]
      rfl
    have hgetD2 : bytes.getD (bytes.length - bytes.length % 3 + 1) 0 = b := by
      rw [List.getD_eq_getElem?_getD, ← List.getElem?_drop, hab]
      rfl
    rw [hgetD, hgetD2]
    conv_rhs => rw [hsplit]
    rw [raw_concat_two tbl _ a b (by rw [hlt]; omega)]
    simp

/-! ### Character classes of encoded output -/

theorem encGroup_mem (tbl : List Char) (a b c : Nat) (ch : Char)
    (h : ch ∈ encGroup tbl a b c) : ∃ s, s < 64 ∧ ch = tbl.getD s 'A' := by
  rw [encGroup_explicit] at h
  have h64 : ∀ x : Nat, x % 64 < 64 := fun x => Nat.mod_lt _ (by norm_num)
  simp only [List.mem_cons, List.not_mem_nil, or_false] at h
  rcases h with h | h | h | h
  · exact ⟨_, h64 _, h⟩
  · exact ⟨_, h64 _, h⟩
  · exact ⟨_, h64 _, h⟩
  · exact ⟨_, h64 _, h⟩

theorem rawLoop_mem (tbl : List Char) (l : Bytes) (ch : Char)
    (h : ch ∈ rawLoop tbl l) : ∃ s, s < 64 ∧ ch = tbl.getD s 'A' := by
  induction l using rawLoop.induct tbl with
  | case1 => simp [rawLoop] at h
  | case2 a => exact encGroup_mem _ _ _ _ _ h
  | case3 a b => exact encGroup_mem _ _ _ _ _ h
  | case4 a b c r ih =>
    rw [rawLoop_cons3, List.mem_append] at h
    rcases h with h | h
    · exact encGroup_mem _ _ _ _ _ h
    · exact ih h

theorem raw_mem (tbl : List Char) (l : Bytes) (ch : Char)
    (h : ch ∈ encodeBytesToBase64Raw l tbl) :
    ch = '=' ∨ ∃ s, s < 64 ∧ ch = tbl.getD s 'A' := by
  induction l using rawLoop.induct tbl with
  | case1 => rw [raw_nil] at h; simp at h
  | case2 a =>
    rw [raw_one] at h
    have h64 : ∀ x : Nat, x % 64 < 64 := fun x => Nat.mod_lt _ (by norm_num)
    simp only [List.mem_cons, List.not_mem_nil, or_false] at h
    rcases h with h | h | h | h
    · exact .inr ⟨_, h64 _, h⟩
    · exact .inr ⟨_, h64 _, h⟩
    · exact .inl h
    · exact .inl h
  | case3 a b =>
    rw [raw_two] at h
    have h64 : ∀ x : Nat, x % 64 < 64 := fun x => Nat.mod_lt _ (by norm_num)
    simp only [List.mem_cons, List.not_mem_nil, or_false] at h
    rcases h with h | h | h | h
    · exact .inr ⟨_, h64 _, h⟩
    · exact .inr ⟨_, h64 _, h⟩
    · exact .inr ⟨_, h64 _, h⟩
    · exact .inl h
  | case4 a b c r ih =>
    rw [raw_cons3, List.mem_append] at h
    rcases h with h | h
    · exact .inr (encGroup_mem _ _ _ _ _ h)
    · exact ih h

/-! ### Decoding the raw encoding recovers the bytes -/

theorem decodeGroups_raw (tbl : List Char) (lk : Char → Option Nat)
    (hlk : ∀ s, s < 64 → lk (tbl.getD s 'A') = some s)
    (hne : ∀ s, s < 64 → tbl.getD s 'A' ≠ '=') :
    ∀ B : Bytes, (∀ x ∈ B, x < 256) → ∀ i,
      decodeGroups lk i (encodeBytesToBase64Raw B tbl) =
        .ok (B ++ (if B.length % 3 = 1 then [0, 0]
          else if B.length % 3 = 2 then [0] else [])) := by
  intro B
  have h64 : ∀ x : Nat, x % 64 < 64 := fun x => Nat.mod_lt _ (by norm_num)
  induction B using rawLoop.induct tbl with
  | case1 => intro _ i; rw [raw_nil]; simp [decodeGroups]
  | case2 a =>
    intro hwf i
    have ha : a < 256 := hwf a (by simp)
    rw [raw_one]
    simp only [decodeGroups, hlk _ (h64 _), if_pos rfl]
    norm_num
    omega
  | case3 a b =>
    intro hwf i
    have ha : a < 256 := hwf a (by simp)
    have hb : b < 256 := hwf b (by simp)
    rw [raw_two]
    simp only [decodeGroups, hlk _ (h64 _), if_neg (hne _ (h64 _)), if_pos rfl]
    norm_num
    omega
  | case4 a b c r ih =>
    intro hwf i
    have ha : a < 256 := hwf a (by simp)
    have hb : b < 256 := hwf b (by simp)
    have hc : c < 256 := hwf c (by simp)
    have hwr : ∀ x ∈ r, x < 256 := fun x hx => hwf x (by simp [hx])
    rw [raw_cons3, encGroup_explicit]
    simp only [List.cons_append, List.nil_append]
    simp only [decodeGroups, hlk _ (h64 _), if_neg (hne _ (h64 _))]
    rw [ih hwr (i + 4)]
    have hmod : (a :: b :: c :: r).length % 3 = r.length % 3 := by
      simp only [List.length_cons]; omega
    rw [hmod]
    simp only [List.cons_append, List.nil_append]
    have e1 : ((a * 65536 + b * 256 + c) / 262144 % 64 * 262144 +
        (a * 65536 + b * 256 + c) / 4096 % 64 * 4096 +
        (a * 65536 + b * 256 + c) / 64 % 64 * 64 +
        (a * 65536 + b * 256 + c) % 64) / 65536 % 256 = a := by omega
    have e2 : ((a * 65536 + b * 256 + c) / 262144 % 64 * 262144 +
        (a * 65536 + b * 256 + c) / 4096 % 64 * 4096 +
        (a * 65536 + b * 256 + c) / 64 % 64 * 64 +
        (a * 65536 + b * 256 + c) % 64) / 256 % 256 = b := by omega
    have e3 : ((a * 65536 + b * 256 + c) / 262144 % 64 * 262144 +
        (a * 65536 + b * 256 + c) / 4096 % 64 * 4096 +
        (a * 65536 + b * 256 + c) / 64 % 64 * 64 +
        (a * 65536 + b * 256 + c) % 64) % 256 = c := by omega
    rw [e1, e2, e3]

/-! ### Lengths and padding counts of the raw encoding -/

theorem length_raw (tbl : List Char) (B : Bytes) :
    (encodeBytesToBase64Raw B tbl).length = 4 * ((B.length + 2) / 3) := by
  unfold encodeBytesToBase64Raw
  have h := length_rawLoop tbl B
  have h03 : B.length % 3 = 0 ∨ B.length % 3 = 1 ∨ B.length % 3 = 2 := by omega
  rcases h03 with h3 | h3 | h3 <;>
    simp [h3, List.length_dropLast, h] <;> omega

theorem padCount_no_eq (l : List Char) (h : ∀ ch ∈ l, ch ≠ '=') : padCount l = 0 := by
  unfold padCount
  have h2 : ¬ l.reverse.take 2 = ['=', '='] := by
    intro he
    have : '=' ∈ l.reverse.take 2 := by rw [he]; simp
    exact h '=' (by
      have := List.mem_of_mem_take this
      rwa [List.mem_reverse] at this) rfl
  have h1 : ¬ l.reverse.take 1 = ['='] := by
    intro he
    have : '=' ∈ l.reverse.take 1 := by rw [he]; simp
    exact h '=' (by
      have := List.mem_of_mem_take this
      rwa [List.mem_reverse] at this) rfl
  rw [if_neg h2, if_neg h1]

theorem padCount_eqeq (y : List Char) : padCount (y ++ ['=', '=']) = 2 := by
  unfold padCount
  rw [List.reverse_append]
  simp

theorem padCount_single_eq (z : List Char) (h : ∀ ch ∈ z, ch ≠ '=') :
    padCount (z ++ ['=']) = 1 := by
  unfold padCount
  rw [List.reverse_append]
  simp only [List.reverse_cons, List.reverse_nil, List.nil_append, List.cons_append]
  rcases hz : z.reverse with _ | ⟨x, rest⟩
  · simp
  · have hx : x ≠ '=' := by
      apply h
      rw [← List.mem_reverse, hz]
      simp
    simp [hx]

theorem padCount_raw (tbl : List Char) (B : Bytes)
    (hne : ∀ s, s < 64 → tbl.getD s 'A' ≠ '=') :
    padCount (encodeBytesToBase64Raw B tbl) =
      (if B.length % 3 = 1 then 2 else if B.length % 3 = 2 then 1 else 0) := by
  unfold encodeBytesToBase64Raw
  have h03 : B.length % 3 = 0 ∨ B.length % 3 = 1 ∨ B.length % 3 = 2 := by omega
  rcases h03 with h3 | h3 | h3 <;> simp only [h3] <;> norm_num
  · exact padCount_no_eq _ (fun ch hch => by
      obtain ⟨s, hs, he⟩ := rawLoop_mem tbl B ch hch
      rw [he]; exact hne s hs)
  · exact padCount_eqeq _
  · exact padCount_single_eq _ (fun ch hch => by
      have hch2 : ch ∈ rawLoop tbl B := (List.dropLast_sublist _).subset hch
      obtain ⟨s, hs, he⟩ := rawLoop_mem tbl B ch hch2
      rw [he]; exact hne s hs)

/-! ### Properties of trailing-`=` stripping -/

theorem strip_append_eq (l : List Char) :
    stripTrailingEq (l ++ ['=']) = stripTrailingEq l := by
  induction l with
  | nil => simp [stripTrailingEq]
  | cons c rest ih =>
    simp only [List.cons_append, stripTrailingEq, List.append_eq, ih]

theorem strip_no_eq (l : List Char) (h : ∀ ch ∈ l, ch ≠ '=') :
    stripTrailingEq l = l := by
  induction l with
  | nil => rfl
  | cons c rest ih =>
    have hc : c ≠ '=' := h c (by simp)
    rw [stripTrailingEq, if_neg (by simp [hc]), ih (fun ch hch => h ch (by simp [hch]))]

theorem strip_mem (l : List Char) (ch : Char) (h : ch ∈ stripTrailingEq l) : ch ∈ l := by
  induction l with
  | nil => simpa [stripTrailingEq] using h
  | cons c rest ih =>
    rw [stripTrailingEq] at h
    split at h
    · simp at h
    · rcases List.mem_cons.mp h with h | h
      · simp [h]
      · simp [ih h]

theorem strip_eq_nil_all (l : List Char) (h : stripTrailingEq l = []) :
    ∀ ch ∈ l, ch = '=' := by
  induction l with
  | nil => simp
  | cons c rest ih =>
    rw [stripTrailingEq] at h
    split at h
    · next hc =>
      intro ch hch
      rcases List.mem_cons.mp hch with h1 | h1
      · rw [h1, hc.1]
      · exact ih hc.2 ch h1
    · simp at h

theorem strip_mem_rev (l : List Char) (ch : Char) (h : ch ∈ l) (hne : ch ≠ '=') :
    ch ∈ stripTrailingEq l := by
  induction l with
  | nil => simp at h
  | cons c rest ih =>
    rw [stripTrailingEq]
    split
    · next hc =>
      exfalso
      rcases List.mem_cons.mp h with h1 | h1
      · exact hne (h1.trans hc.1)
      · exact hne (strip_eq_nil_all rest hc.2 ch h1)
    · rcases List.mem_cons.mp h with h1 | h1
      · simp [h1]
      · simp [ih h1]

theorem strip_getLast_ne (l : List Char) :
    (stripTrailingEq l).getLast? ≠ some '=' := by
  induction l with
  | nil => simp [stripTrailingEq]
  | cons c rest ih =>
    rw [stripTrailingEq]
    split
    · simp
    · next hc =>
      rcases hsr : stripTrailingEq rest with _ | ⟨x, xs⟩
      · have hcne : ¬ c = '=' := fun he => hc ⟨he, hsr⟩
        simp [hcne]
      · rw [List.getLast?_cons_cons]
        rw [hsr] at ih
        exact ih

theorem any_strip (p : Char → Bool) (hp : p '=' = false) (l : List Char) :
    (stripTrailingEq l).any p = l.any p := by
  rcases h : l.any p with _ | _
  · rw [List.any_eq_false] at h ⊢
    exact fun ch hch => h ch (strip_mem l ch hch)
  · rw [List.any_eq_true] at h ⊢
    obtain ⟨ch, hch, hpch⟩ := h
    have hne : ch ≠ '=' := fun he => by rw [he, hp] at hpch; exact Bool.false_ne_true hpch
    exact ⟨ch, strip_mem_rev l ch hch hne, hpch⟩

theorem strip_raw (tbl : List Char) (B : Bytes)
    (hne : ∀ s, s < 64 → tbl.getD s 'A' ≠ '=') :
    stripTrailingEq (encodeBytesToBase64Raw B tbl) =
      (if B.length % 3 = 1 then (rawLoop tbl B).dropLast.dropLast
        else if B.length % 3 = 2 then (rawLoop tbl B).dropLast
        else rawLoop tbl B) := by
  have hmem : ∀ ch ∈ rawLoop tbl B, ch ≠ '=' := fun ch hch => by
    obtain ⟨s, hs, he⟩ := rawLoop_mem tbl B ch hch
    rw [he]; exact hne s hs
  unfold encodeBytesToBase64Raw
  have h03 : B.length % 3 = 0 ∨ B.length % 3 = 1 ∨ B.length % 3 = 2 := by omega
  rcases h03 with h3 | h3 | h3 <;> simp only [h3] <;> norm_num
  · exact strip_no_eq _ hmem
  · rw [show ((rawLoop tbl B).dropLast.dropLast ++ ['=', '='] :
        List Char) = ((rawLoop tbl B).dropLast.dropLast ++ ['=']) ++ ['='] by simp,
      strip_append_eq, strip_append_eq]
    exact strip_no_eq _ (fun ch hch => hmem ch
      ((List.dropLast_sublist _).subset ((List.dropLast_sublist _).subset hch)))
  · rw [strip_append_eq]
    exact strip_no_eq _ (fun ch hch => hmem ch ((List.dropLast_sublist _).subset hch))

/-! ### Whole-string facts about encoded output -/

theorem raw_decomp (tbl : List Char) (B : Bytes) :
    encodeBytesToBase64Raw B tbl =
      (if B.length % 3 = 1 then (rawLoop tbl B).dropLast.dropLast ++ ['=', '=']
        else if B.length % 3 = 2 then (rawLoop tbl B).dropLast ++ ['=']
        else rawLoop tbl B) := by
  unfold encodeBytesToBase64Raw
  rfl

theorem cleanWs_of_no_ws (l : List Char) (h : ∀ ch ∈ l, isJsWhitespace ch = false) :
    cleanWs l = l :=
  List.filter_eq_self.mpr (fun ch hch => by rw [h ch hch]; rfl)

theorem cleanWs_raw (tbl : List Char) (B : Bytes)
    (hws : ∀ s, s < 64 → isJsWhitespace (tbl.getD s 'A') = false) :
    cleanWs (encodeBytesToBase64Raw B tbl) = encodeBytesToBase64Raw B tbl := by
  apply cleanWs_of_no_ws
  intro ch hch
  rcases raw_mem tbl B ch hch with h | ⟨s, hs, he⟩
  · rw [h]; decide
  · rw [he]; exact hws s hs

theorem hasUrlChars_raw_std (B : Bytes) :
    hasUrlChars (encodeBytesToBase64Raw B B64_STD) = false := by
  rw [hasUrlChars, List.any_eq_false]
  intro ch hch
  rcases raw_mem B64_STD B ch hch with h | ⟨s, hs, he⟩
  · rw [h]; decide
  · rw [he]
    have hp := std_char_props s hs
    simp only [Bool.or_eq_true, decide_eq_true_eq]
    rintro (hc | hc)
    · exact hp.2.2.1 hc
    · exact hp.2.2.2 hc

theorem hasStdChars_raw_url (B : Bytes) :
    hasStdChars (encodeBytesToBase64Raw B B64_URL) = false := by
  rw [hasStdChars, List.any_eq_false]
  intro ch hch
  rcases raw_mem B64_URL B ch hch with h | ⟨s, hs, he⟩
  · rw [h]; decide
  · rw [he]
    have hp := url_char_props s hs
    simp only [Bool.or_eq_true, decide_eq_true_eq]
    rintro (hc | hc)
    · exact hp.2.2.1 hc
    · exact hp.2.2.2 hc

theorem url_char_eq_std (s : Nat) (hs : s < 64)
    (h1 : B64_URL.getD s 'A' ≠ '-') (h2 : B64_URL.getD s 'A' ≠ '_') :
    B64_URL.getD s 'A' = B64_STD.getD s 'A' := by
  have hiff := url_dash_iff s hs
  have hne : ¬(s = 62 ∨ s = 63) := fun hc => by
    rcases hiff.mpr hc with h | h
    · exact h1 h
    · exact h2 h
  exact url_std_agree s hs (fun h => hne (Or.inl h)) (fun h => hne (Or.inr h))

theorem encGroup_url_eq_std (a b c : Nat)
    (h : ∀ ch ∈ encGroup B64_URL a b c, ch ≠ '-' ∧ ch ≠ '_') :
    encGroup B64_URL a b c = encGroup B64_STD a b c := by
  have h64 : ∀ x : Nat, x % 64 < 64 := fun x => Nat.mod_lt _ (by norm_num)
  have e : ∀ s, s < 64 → B64_URL.getD s 'A' ∈ encGroup B64_URL a b c →
      B64_URL.getD s 'A' = B64_STD.getD s 'A' := by
    intro s hs hmem
    exact url_char_eq_std s hs (h _ hmem).1 (h _ hmem).2
  have m1 : B64_URL.getD ((a * 65536 + b * 256 + c) / 262144 % 64) 'A' ∈
      encGroup B64_URL a b c := by rw [encGroup_explicit]; exact List.mem_cons_self _ _
  have m2 : B64_URL.getD ((a * 65536 + b * 256 + c) / 4096 % 64) 'A' ∈
      encGroup B64_URL a b c := by rw [encGroup_explicit]; simp
  have m3 : B64_URL.getD ((a * 65536 + b * 256 + c) / 64 % 64) 'A' ∈
      encGroup B64_URL a b c := by rw [encGroup_explicit]; simp
  have m4 : B64_URL.getD ((a * 65536 + b * 256 + c) % 64) 'A' ∈
      encGroup B64_URL a b c := by rw [encGroup_explicit]; simp
  rw [encGroup_explicit, encGroup_explicit,
    e ((a * 65536 + b * 256 + c) / 262144 % 64) (h64 _) m1,
    e ((a * 65536 + b * 256 + c) / 4096 % 64) (h64 _) m2,
    e ((a * 65536 + b * 256 + c) / 64 % 64) (h64 _) m3,
    e ((a * 65536 + b * 256 + c) % 64) (h64 _) m4]

theorem raw_url_eq_std (B : Bytes)
    (h : hasUrlChars (encodeBytesToBase64Raw B B64_URL) = false) :
    encodeBytesToBase64Raw B B64_URL = encodeBytesToBase64Raw B B64_STD := by
  rw [hasUrlChars, List.any_eq_false] at h
  have hch : ∀ ch ∈ encodeBytesToBase64Raw B B64_URL, ch ≠ '-' ∧ ch ≠ '_' := by
    intro ch hmem
    have := h ch hmem
    constructor <;> intro he <;> rw [he] at this <;> simp at this
  clear h
  induction B using rawLoop.induct B64_URL with
  | case1 => rfl
  | case2 a =>
    rw [raw_one, raw_one]
    rw [raw_one] at hch
    have h64 : ∀ x : Nat, x % 64 < 64 := fun x => Nat.mod_lt _ (by norm_num)
    have e1 := url_char_eq_std (a * 65536 / 262144 % 64) (h64 _)
      (hch (B64_URL.getD (a * 65536 / 262144 % 64) 'A') (by simp)).1
      (hch (B64_URL.getD (a * 65536 / 262144 % 64) 'A') (by simp)).2
    have e2 := url_char_eq_std (a * 65536 / 4096 % 64) (h64 _)
      (hch (B64_URL.getD (a * 65536 / 4096 % 64) 'A') (by simp)).1
      (hch (B64_URL.getD (a * 65536 / 4096 % 64) 'A') (by simp)).2
    rw [e1, e2]
  | case3 a b =>
    rw [raw_two, raw_two]
    rw [raw_two] at hch
    have h64 : ∀ x : Nat, x % 64 < 64 := fun x => Nat.mod_lt _ (by norm_num)
    have e1 := url_char_eq_std ((a * 65536 + b * 256) / 262144 % 64) (h64 _)
      (hch (B64_URL.getD ((a * 65536 + b * 256) / 262144 % 64) 'A') (by simp)).1
      (hch (B64_URL.getD ((a * 65536 + b * 256) / 262144 % 64) 'A') (by simp)).2
    have e2 := url_char_eq_std ((a * 65536 + b * 256) / 4096 % 64) (h64 _)
      (hch (B64_URL.getD ((a * 65536 + b * 256) / 4096 % 64) 'A') (by simp)).1
      (hch (B64_URL.getD ((a * 65536 + b * 256) / 4096 % 64) 'A') (by simp)).2
    have e3 := url_char_eq_std ((a * 65536 + b * 256) / 64 % 64) (h64 _)
      (hch (B64_URL.getD ((a * 65536 + b * 256) / 64 % 64) 'A') (by simp)).1
      (hch (B64_URL.getD ((a * 65536 + b * 256) / 64 % 64) 'A') (by simp)).2
    rw [e1, e2, e3]
  | case4 a b c r ih =>
    rw [raw_cons3, raw_cons3]
    rw [raw_cons3] at hch
    have hg : ∀ ch ∈ encGroup B64_URL a b c, ch ≠ '-' ∧ ch ≠ '_' := by
      intro ch hm; exact hch ch (by rw [List.mem_append]; exact .inl hm)
    have hr : ∀ ch ∈ encodeBytesToBase64Raw r B64_URL, ch ≠ '-' ∧ ch ≠ '_' := by
      intro ch hm; exact hch ch (by rw [List.mem_append]; exact .inr hm)
    rw [encGroup_url_eq_std a b c hg, ih hr]

/-! ### Padding-placement validation -/

theorem findIdx_eq_of_prefix (x t : List Char) (hx : ∀ ch ∈ x, ch ≠ '=') :
    (x ++ '=' :: t).findIdx (fun ch => ch = '=') = x.length := by
  induction x with
  | nil => simp [List.findIdx_cons]
  | cons c rest ih =>
    have hc : c ≠ '=' := hx c (by simp)
    rw [List.cons_append, List.findIdx_cons,
      show decide (c = '=') = false from decide_eq_false hc]
    simp only [Bool.cond_false]
    rw [ih (fun ch hch => hx ch (by simp [hch]))]
    simp

theorem validEqTail_no_eq (l : List Char) (h : ∀ ch ∈ l, ch ≠ '=') :
    validEqTail l = true := by
  unfold validEqTail
  have : ¬ l.contains '=' = true := by
    intro hc
    rw [List.contains_eq_any_beq, List.any_eq_true] at hc
    obtain ⟨ch, hch, hb⟩ := hc
    exact h ch hch (show ('=' : Char) = ch by simpa using hb).symm
  rw [if_neg this]

theorem validEqTail_append2 (x : List Char) (hx : ∀ ch ∈ x, ch ≠ '=') :
    validEqTail (x ++ ['=', '=']) = true := by
  unfold validEqTail
  have hc : (x ++ ['=', '=']).contains '=' = true := by
    rw [List.contains_eq_any_beq, List.any_eq_true]
    exact ⟨'=', by simp, by simp⟩
  rw [if_pos hc, show (['=', '='] : List Char) = '=' :: ['='] from rfl,
    findIdx_eq_of_prefix x _ hx, List.drop_left]
  simp

theorem validEqTail_append1 (x : List Char) (hx : ∀ ch ∈ x, ch ≠ '=') :
    validEqTail (x ++ ['=']) = true := by
  unfold validEqTail
  have hc : (x ++ ['=']).contains '=' = true := by
    rw [List.contains_eq_any_beq, List.any_eq_true]
    exact ⟨'=', by simp, by simp⟩
  rw [if_pos hc, show (['='] : List Char) = '=' :: [] from rfl,
    findIdx_eq_of_prefix x _ hx, List.drop_left]
  simp

/-! ### Strict decoding of padded encodings -/

theorem decode_raw_with (tbl : List Char) (B : Bytes) (hB : ∀ x ∈ B, x < 256)
    (hws : ∀ s, s < 64 → isJsWhitespace (tbl.getD s 'A') = false)
    (hne : ∀ s, s < 64 → tbl.getD s 'A' ≠ '=')
    (hmix : (hasUrlChars (encodeBytesToBase64Raw B tbl) &&
      hasStdChars (encodeBytesToBase64Raw B tbl)) = false)
    (hlk : ∀ s, s < 64 →
      (if hasUrlChars (encodeBytesToBase64Raw B tbl) then B64_URL_LOOKUP else B64_STD_LOOKUP)
        (tbl.getD s 'A') = some s) :
    decodeBase64ToBytes (encodeBytesToBase64Raw B tbl) {} = .ok B := by
  by_cases hB0 : B = []
  · subst hB0
    rw [raw_nil]
    rfl
  · have hlenE := length_raw tbl B
    have hg1 : 1 ≤ (B.length + 2) / 3 := by
      have := List.length_pos.mpr hB0; omega
    have hEne : encodeBytesToBase64Raw B tbl ≠ [] := by
      intro h
      rw [h] at hlenE
      simp at hlenE
      omega
    have hmemE : ∀ ch ∈ rawLoop tbl B, ch ≠ '=' := fun ch hch => by
      obtain ⟨s, hs, he⟩ := rawLoop_mem tbl B ch hch
      rw [he]; exact hne s hs
    have hvalid : validEqTail (encodeBytesToBase64Raw B tbl) = true := by
      rw [raw_decomp]
      have h03 : B.length % 3 = 0 ∨ B.length % 3 = 1 ∨ B.length % 3 = 2 := by omega
      rcases h03 with h3 | h3 | h3 <;> simp only [h3] <;> norm_num
      · exact validEqTail_no_eq _ hmemE
      · exact validEqTail_append2 _ (fun ch hch => hmemE ch
          ((List.dropLast_sublist _).subset ((List.dropLast_sublist _).subset hch)))
      · exact validEqTail_append1 _ (fun ch hch => hmemE ch
          ((List.dropLast_sublist _).subset hch))
    unfold decodeBase64ToBytes
    rw [if_neg hEne, cleanWs_raw tbl B hws,
      if_neg (show ¬(hasUrlChars (encodeBytesToBase64Raw B tbl) &&
        hasStdChars (encodeBytesToBase64Raw B tbl)) = true by
          rw [hmix]; exact Bool.false_ne_true)]
    have hloose : ({} : DecodeOptions).loose = false := rfl
    rw [hloose]
    dsimp only
    rw [if_neg (Bool.false_ne_true),
      if_neg (show ¬ (encodeBytesToBase64Raw B tbl).length % 4 = 1 by
        rw [length_raw]; omega),
      if_neg (show ¬ ((encodeBytesToBase64Raw B tbl).length % 4 = 2 ∨
        (encodeBytesToBase64Raw B tbl).length % 4 = 3) by rw [length_raw]; omega),
      if_pos hvalid]
    dsimp only
    rw [show (encodeBytesToBase64Raw B tbl).length / 4 * 3 -
        padCount (encodeBytesToBase64Raw B tbl) = B.length by
      rw [length_raw, padCount_raw tbl B hne]
      have h03 : B.length % 3 = 0 ∨ B.length % 3 = 1 ∨ B.length % 3 = 2 := by omega
      rcases h03 with h3 | h3 | h3 <;> simp only [h3] <;> norm_num <;> omega]
    rw [decodeGroups_raw tbl _ hlk hne B hB 0]
    dsimp only
    rw [List.take_left]
    rfl

theorem decode_raw_std (B : Bytes) (hB : ∀ x ∈ B, x < 256) :
    decodeBase64ToBytes (encodeBytesToBase64Raw B B64_STD) {} = .ok B := by
  apply decode_raw_with B64_STD B hB
    (fun s hs => (std_char_props s hs).1) (fun s hs => (std_char_props s hs).2.1)
  · rw [hasUrlChars_raw_std]
    rfl
  · intro s hs
    rw [hasUrlChars_raw_std]
    simp only [Bool.false_eq_true, if_false]
    exact lookup_std_getD s hs

theorem decode_raw_url (B : Bytes) (hB : ∀ x ∈ B, x < 256) :
    decodeBase64ToBytes (encodeBytesToBase64Raw B B64_URL) {} = .ok B := by
  rcases hu : hasUrlChars (encodeBytesToBase64Raw B B64_URL) with _ | _
  · rw [raw_url_eq_std B hu]
    exact decode_raw_std B hB
  · apply decode_raw_with B64_URL B hB
      (fun s hs => (url_char_props s hs).1) (fun s hs => (url_char_props s hs).2.1)
    · rw [hasStdChars_raw_url]
      simp
    · intro s hs
      rw [hu]
      simp only [if_true]
      exact lookup_url_getD s hs

/-! ### Strict decoding of stripped (no-padding) encodings -/

theorem decode_strip_with (tbl : List Char) (B : Bytes) (hB : ∀ x ∈ B, x < 256)
    (hws : ∀ s, s < 64 → isJsWhitespace (tbl.getD s 'A') = false)
    (hne : ∀ s, s < 64 → tbl.getD s 'A' ≠ '=')
    (hmix : (hasUrlChars (encodeBytesToBase64Raw B tbl) &&
      hasStdChars (encodeBytesToBase64Raw B tbl)) = false)
    (hlk : ∀ s, s < 64 →
      (if hasUrlChars (encodeBytesToBase64Raw B tbl) then B64_URL_LOOKUP else B64_STD_LOOKUP)
        (tbl.getD s 'A') = some s)
    (halph : (if hasUrlChars (encodeBytesToBase64Raw B tbl) then B64_URL else B64_STD) = tbl) :
    decodeBase64ToBytes (stripTrailingEq (encodeBytesToBase64Raw B tbl)) {} = .ok B := by
  by_cases hB0 : B = []
  · subst hB0
    rw [raw_nil]
    rfl
  · have hg1 : 1 ≤ (B.length + 2) / 3 := by
      have := List.length_pos.mpr hB0; omega
    have hrawlen := length_rawLoop tbl B
    have hmemE : ∀ ch ∈ rawLoop tbl B, ch ≠ '=' := fun ch hch => by
      obtain ⟨s, hs, he⟩ := rawLoop_mem tbl B ch hch
      rw [he]; exact hne s hs
    have h03 : B.length % 3 = 0 ∨ B.length % 3 = 1 ∨ B.length % 3 = 2 := by omega
    rcases h03 with h3 | h3 | h3
    · -- no padding was produced, so stripping is the identity
      have hid : stripTrailingEq (encodeBytesToBase64Raw B tbl) =
          encodeBytesToBase64Raw B tbl := by
        rw [strip_raw tbl B hne, raw_decomp]
        simp [h3]
      rw [hid]
      exact decode_raw_with tbl B hB hws hne hmix hlk
    · -- two `=` were stripped; strict mode re-pads and checks canonicity
      have hS : stripTrailingEq (encodeBytesToBase64Raw B tbl) =
          (rawLoop tbl B).dropLast.dropLast := by
        rw [strip_raw tbl B hne]
        simp [h3]
      have hSlen : (stripTrailingEq (encodeBytesToBase64Raw B tbl)).length =
          4 * ((B.length + 2) / 3) - 2 := by
        rw [hS, List.length_dropLast, List.length_dropLast, hrawlen]
        omega
      have hSne : stripTrailingEq (encodeBytesToBase64Raw B tbl) ≠ [] := by
        intro h
        rw [h] at hSlen
        simp at hSlen
        omega
      have hSmem : ∀ ch ∈ stripTrailingEq (encodeBytesToBase64Raw B tbl), ch ≠ '=' :=
        fun ch hch => hmemE ch (by
          rw [hS] at hch
          exact (List.dropLast_sublist _).subset ((List.dropLast_sublist _).subset hch))
      have hSws : cleanWs (stripTrailingEq (encodeBytesToBase64Raw B tbl)) =
          stripTrailingEq (encodeBytesToBase64Raw B tbl) := by
        apply cleanWs_of_no_ws
        intro ch hch
        have hch2 := strip_mem _ ch hch
        rcases raw_mem tbl B ch hch2 with h | ⟨s, hs, he⟩
        · rw [h]; decide
        · rw [he]; exact hws s hs
      have hu : hasUrlChars (stripTrailingEq (encodeBytesToBase64Raw B tbl)) =
          hasUrlChars (encodeBytesToBase64Raw B tbl) := by
        unfold hasUrlChars
        exact any_strip _ (by decide) _
      have hs : hasStdChars (stripTrailingEq (encodeBytesToBase64Raw B tbl)) =
          hasStdChars (encodeBytesToBase64Raw B tbl) := by
        unfold hasStdChars
        exact any_strip _ (by decide) _
      have hmd : (stripTrailingEq (encodeBytesToBase64Raw B tbl)).length % 4 = 2 := by
        rw [hSlen]; omega
      have hpad : stripTrailingEq (encodeBytesToBase64Raw B tbl) ++ ['=', '='] =
          encodeBytesToBase64Raw B tbl := by
        rw [hS]
        conv_rhs => rw [raw_decomp]
        simp [h3]
      unfold decodeBase64ToBytes
      rw [if_neg hSne, hSws]
      dsimp only
      rw [hu, hs,
        if_neg (show ¬(hasUrlChars (encodeBytesToBase64Raw B tbl) &&
          hasStdChars (encodeBytesToBase64Raw B tbl)) = true by
            rw [hmix]; exact Bool.false_ne_true)]
      rw [hmd, if_neg (Bool.false_ne_true),
        if_neg (show ¬ (2:Nat) = 1 by norm_num),
        if_pos (show (2:Nat) = 2 ∨ (2:Nat) = 3 from Or.inl rfl),
        show (List.replicate (4 - 2) '=' : List Char) = ['=', '='] from rfl, hpad]
      dsimp only
      rw [show (encodeBytesToBase64Raw B tbl).length / 4 * 3 -
          padCount (encodeBytesToBase64Raw B tbl) = B.length by
        rw [length_raw, padCount_raw tbl B hne]
        simp only [h3]
        norm_num
        omega]
      rw [decodeGroups_raw tbl _ hlk hne B hB 0]
      dsimp only
      rw [List.take_left, halph]
      rw [if_pos (show ((!false && true) = true) from rfl)]
      rw [if_pos rfl]
    · -- one `=` was stripped; same shape with a single re-padded character
      have hS : stripTrailingEq (encodeBytesToBase64Raw B tbl) =
          (rawLoop tbl B).dropLast := by
        rw [strip_raw tbl B hne]
        simp [h3]
      have hSlen : (stripTrailingEq (encodeBytesToBase64Raw B tbl)).length =
          4 * ((B.length + 2) / 3) - 1 := by
        rw [hS, List.length_dropLast, hrawlen]
      have hSne : stripTrailingEq (encodeBytesToBase64Raw B tbl) ≠ [] := by
        intro h
        rw [h] at hSlen
        simp at hSlen
        omega
      have hSws : cleanWs (stripTrailingEq (encodeBytesToBase64Raw B tbl)) =
          stripTrailingEq (encodeBytesToBase64Raw B tbl) := by
        apply cleanWs_of_no_ws
        intro ch hch
        have hch2 := strip_mem _ ch hch
        rcases raw_mem tbl B ch hch2 with h | ⟨s, hs, he⟩
        · rw [h]; decide
        · rw [he]; exact hws s hs
      have hu : hasUrlChars (stripTrailingEq (encodeBytesToBase64Raw B tbl)) =
          hasUrlChars (encodeBytesToBase64Raw B tbl) := by
        unfold hasUrlChars
        exact any_strip _ (by decide) _
      have hs : hasStdChars (stripTrailingEq (encodeBytesToBase64Raw B tbl)) =
          hasStdChars (encodeBytesToBase64Raw B tbl) := by
        unfold hasStdChars
        exact any_strip _ (by decide) _
      have hmd : (stripTrailingEq (encodeBytesToBase64Raw B tbl)).length % 4 = 3 := by
        rw [hSlen]; omega
      have hpad : stripTrailingEq (encodeBytesToBase64Raw B tbl) ++ ['='] =
          encodeBytesToBase64Raw B tbl := by
        rw [hS]
        conv_rhs => rw [raw_decomp]
        simp [h3]
      unfold decodeBase64ToBytes
      rw [if_neg hSne, hSws]
      dsimp only
      rw [hu, hs,
        if_neg (show ¬(hasUrlChars (encodeBytesToBase64Raw B tbl) &&
          hasStdChars (encodeBytesToBase64Raw B tbl)) = true by
            rw [hmix]; exact Bool.false_ne_true)]
      rw [hmd, if_neg (Bool.false_ne_true),
        if_neg (show ¬ (3:Nat) = 1 by norm_num),
        if_pos (show (3:Nat) = 2 ∨ (3:Nat) = 3 from Or.inr rfl),
        show (List.replicate (4 - 3) '=' : List Char) = ['='] from rfl, hpad]
      dsimp only
      rw [show (encodeBytesToBase64Raw B tbl).length / 4 * 3 -
          padCount (encodeBytesToBase64Raw B tbl) = B.length by
        rw [length_raw, padCount_raw tbl B hne]
        simp only [h3]
        norm_num
        omega]
      rw [decodeGroups_raw tbl _ hlk hne B hB 0]
      dsimp only
      rw [List.take_left, halph]
      rw [if_pos (show ((!false && true) = true) from rfl)]
      rw [if_pos rfl]

theorem decode_strip_std (B : Bytes) (hB : ∀ x ∈ B, x < 256) :
    decodeBase64ToBytes (stripTrailingEq (encodeBytesToBase64Raw B B64_STD)) {} = .ok B := by
  apply decode_strip_with B64_STD B hB
    (fun s hs => (std_char_props s hs).1) (fun s hs => (std_char_props s hs).2.1)
  · rw [hasUrlChars_raw_std]
    rfl
  · intro s hs
    rw [hasUrlChars_raw_std]
    simp only [Bool.false_eq_true, if_false]
    exact lookup_std_getD s hs
  · rw [hasUrlChars_raw_std]
    simp

theorem decode_strip_url (B : Bytes) (hB : ∀ x ∈ B, x < 256) :
    decodeBase64ToBytes (stripTrailingEq (encodeBytesToBase64Raw B B64_URL)) {} = .ok B := by
  rcases hu : hasUrlChars (encodeBytesToBase64Raw B B64_URL) with _ | _
  · rw [raw_url_eq_std B hu]
    exact decode_strip_std B hB
  · apply decode_strip_with B64_URL B hB
      (fun s hs => (url_char_props s hs).1) (fun s hs => (url_char_props s hs).2.1)
    · rw [hasStdChars_raw_url]
      simp
    · intro s hs
      rw [hu]
      simp only [if_true]
      exact lookup_url_getD s hs
    · rw [hu]
      simp

/-- Specialization of the encoder equivalence to the default options. -/
theorem enc_default_eq_raw (B : Bytes) :
    encodeBase64FromBytes B {} = encodeBytesToBase64Raw B B64_STD := by
  have h := encodeBase64FromBytes_eq B none none
  simpa using h

/-- C1: for every byte buffer `B`, both variants and both padding choices
(with no wrapping), strict decoding of the encoding recovers `B`, the variant
being auto-detected by the decoder; `v`/`p` range over all option values, so
the empty buffer and every length mod 3 are covered. -/
theorem c1_round_trip (B : Bytes) (hB : ∀ b ∈ B, b < 256)
    (v : Option Base64Variant) (p : Option PaddingOption) :
    decodeBase64ToBytes (encodeBase64FromBytes B ⟨v, p, none⟩) {} = .ok B := by
  rw [encodeBase64FromBytes_eq]
  by_cases hp : p = some PaddingOption.strip
  · rw [if_pos hp]
    by_cases hv : v = some Base64Variant.url
    · rw [if_pos hv]
      exact decode_strip_url B hB
    · rw [if_neg hv]
      exact decode_strip_std B hB
  · rw [if_neg hp]
    by_cases hv : v = some Base64Variant.url
    · rw [if_pos hv]
      exact decode_raw_url B hB
    · rw [if_neg hv]
      exact decode_raw_std B hB

/-- Witness for C1 at a concrete buffer covering bytes above 0x7f, with the
URL-safe variant and stripped padding. -/
theorem c1_round_trip_witness :
    decodeBase64ToBytes (encodeBase64FromBytes [97, 98, 255]
      ⟨some Base64Variant.url, some PaddingOption.strip, none⟩) {} = .ok [97, 98, 255] :=
  c1_round_trip [97, 98, 255] (by decide) (some Base64Variant.url) (some PaddingOption.strip)

/-- C9: with default options the batched encoder (0x8000-byte chunking)
produces character-for-character the same string as the decoder's internal
straight-line re-encoder over the standard alphabet. -/
theorem c9_chunked_eq_raw (B : Bytes) :
    encodeBase64FromBytes B {} = encodeBytesToBase64Raw B B64_STD := by
  have h := encodeBase64FromBytes_eq B none none
  simpa using h

/-- C3: tail shapes of the padded encoder output — two encoded characters of
the final byte plus `==` for length 1 mod 3, three encoded characters plus
`=` for length 2 mod 3, nothing beyond the complete groups for length 0
mod 3 — together with the three concrete examples from the spec. -/
theorem c3_padding_tail (B : Bytes) (hB : ∀ b ∈ B, b < 256) :
    (B.length % 3 = 0 → encodeBase64FromBytes B {} = rawLoop B64_STD B) ∧
    (B.length % 3 = 1 → encodeBase64FromBytes B {} =
      rawLoop B64_STD (B.take (B.length - 1)) ++
        [B64_STD.getD (B.getD (B.length - 1) 0 / 4) 'A',
         B64_STD.getD (B.getD (B.length - 1) 0 % 4 * 16) 'A', '=', '=']) ∧
    (B.length % 3 = 2 → encodeBase64FromBytes B {} =
      rawLoop B64_STD (B.take (B.length - 2)) ++
        [B64_STD.getD (B.getD (B.length - 2) 0 / 4) 'A',
         B64_STD.getD (B.getD (B.length - 2) 0 % 4 * 16 + B.getD (B.length - 1) 0 / 16) 'A',
         B64_STD.getD (B.getD (B.length - 1) 0 % 16 * 4) 'A', '=']) ∧
    encodeBase64FromBytes [0x61] {} = "YQ==".toList ∧
    encodeBase64FromBytes [0x61, 0x62] {} = "YWI=".toList ∧
    encodeBase64FromBytes [0x61, 0x62, 0x63] {} = "YWJj".toList := by
  refine ⟨fun h3 => ?_, fun h3 => ?_, fun h3 => ?_, ?_, ?_, ?_⟩
  · rw [enc_default_eq_raw, raw_decomp]
    simp [h3]
  · have hdrop : (B.drop (B.length - 1)).length = 1 := by
      rw [List.length_drop]; omega
    obtain ⟨a, ha⟩ : ∃ a, B.drop (B.length - 1) = [a] := by
      rcases he : B.drop (B.length - 1) with _ | ⟨a, _ | ⟨b, r⟩⟩ <;> rw [he] at hdrop <;>
        simp at hdrop <;> try exact ⟨a, rfl⟩
    have hsplit : B = B.take (B.length - 1) ++ [a] := by
      conv_lhs => rw [← List.take_append_drop (B.length - 1) B]
      rw [ha]
    have hgetD : B.getD (B.length - 1) 0 = a := by
      rw [List.getD_eq_getElem?_getD,
        show B.length - 1 = (B.length - 1) + 0 by omega, ← List.getElem?_drop, ha]
      rfl
    have hawf : a < 256 := hB a (by rw [hsplit]; simp)
    rw [enc_default_eq_raw]
    conv_lhs => rw [hsplit]
    rw [raw_concat_one B64_STD _ a (by rw [List.length_take]; omega), hgetD,
      show (a * 65536 + 0 * 256) / 262144 % 64 = a / 4 by omega,
      show (a * 65536 + 0 * 256) / 4096 % 64 = a % 4 * 16 by omega]
  · have hdrop : (B.drop (B.length - 2)).length = 2 := by
      rw [List.length_drop]; omega
    obtain ⟨a, b, hab⟩ : ∃ a b, B.drop (B.length - 2) = [a, b] := by
      rcases he : B.drop (B.length - 2) with _ | ⟨a, _ | ⟨b, _ | ⟨c, r⟩⟩⟩ <;>
        rw [he] at hdrop <;> simp at hdrop <;> try exact ⟨a, b, rfl⟩
    have hsplit : B = B.take (B.length - 2) ++ [a, b] := by
      conv_lhs => rw [← List.take_append_drop (B.length - 2) B]
      rw [hab]
    have hgetD : B.getD (B.length - 2) 0 = a := by
      rw [List.getD_eq_getElem?_getD,
        show B.length - 2 = (B.length - 2) + 0 by omega, ← List.getElem?_drop, hab]
      rfl
    have hgetD2 : B.getD (B.length - 1) 0 = b := by
      rw [List.getD_eq_getElem?_getD,
        show B.length - 1 = (B.length - 2) + 1 by omega, ← List.getElem?_drop, hab]
      rfl
    have hawf : a < 256 := hB a (by rw [hsplit]; simp)
    have hbwf : b < 256 := hB b (by rw [hsplit]; simp)
    rw [enc_default_eq_raw]
    conv_lhs => rw [hsplit]
    rw [raw_concat_two B64_STD _ a b (by rw [List.length_take]; omega), hgetD, hgetD2,
      show (a * 65536 + b * 256) / 262144 % 64 = a / 4 by omega,
      show (a * 65536 + b * 256) / 4096 % 64 = a % 4 * 16 + b / 16 by omega,
      show (a * 65536 + b * 256) / 64 % 64 = b % 16 * 4 by omega]
  · rw [enc_default_eq_raw]
    decide
  · rw [enc_default_eq_raw]
    decide
  · rw [enc_default_eq_raw]
    decide

/-- Witness for C3: the single-byte example evaluated concretely. -/
theorem c3_padding_tail_witness : encodeBase64FromBytes [0x61] {} = "YQ==".toList :=
  (c3_padding_tail [0x61] (by decide)).2.2.2.1

/-- C10: the padded output length is exactly `4 * ceil(n / 3)`, the stripped
output length is exactly `ceil(4 * n / 3)`, and the stripped output never
ends in `=`. -/
theorem c10_output_length (B : Bytes) (v : Option Base64Variant) :
    (encodeBase64FromBytes B ⟨v, some PaddingOption.preserve, none⟩).length =
      4 * ((B.length + 2) / 3) ∧
    (encodeBase64FromBytes B ⟨v, some PaddingOption.strip, none⟩).length =
      (4 * B.length + 2) / 3 ∧
    (encodeBase64FromBytes B ⟨v, some PaddingOption.strip, none⟩).getLast? ≠ some '=' := by
  have hne : ∀ s, s < 64 →
      (if v = some Base64Variant.url then B64_URL else B64_STD).getD s 'A' ≠ '=' := by
    intro s hs
    by_cases hv : v = some Base64Variant.url
    · rw [if_pos hv]; exact (url_char_props s hs).2.1
    · rw [if_neg hv]; exact (std_char_props s hs).2.1
  refine ⟨?_, ?_, ?_⟩
  · rw [encodeBase64FromBytes_eq, if_neg (by simp), length_raw]
  · rw [encodeBase64FromBytes_eq, if_pos rfl,
      strip_raw (if v = some Base64Variant.url then B64_URL else B64_STD) B hne]
    have hlen := length_rawLoop (if v = some Base64Variant.url then B64_URL else B64_STD) B
    have h03 : B.length % 3 = 0 ∨ B.length % 3 = 1 ∨ B.length % 3 = 2 := by omega
    rcases h03 with h3 | h3 | h3 <;>
      simp only [h3, List.length_dropLast, hlen] <;> norm_num <;> omega
  · rw [encodeBase64FromBytes_eq, if_pos rfl]
    exact strip_getLast_ne _

/-- C4 (counterexample to the claim as stated): an input of cleaned length
1 mod 4 that mixes the two alphabets fails with the mixed-alphabet error, not
the length error, in both modes. -/
theorem c4_counterexample :
    (cleanWs "+-A+-".toList).length % 4 = 1 ∧
    decodeBase64ToBytes "+-A+-".toList ⟨false⟩ = .error .mixedAlphabet ∧
    decodeBase64ToBytes "+-A+-".toList ⟨true⟩ = .error .mixedAlphabet ∧
    DecodeError.mixedAlphabet ≠ DecodeError.invalidLength := by decide

/-- C4 (amended): every input whose whitespace-stripped length is 1 mod 4 and
which does not mix the two alphabets fails with the length error in both
strict and loose mode; in particular `"Y"` fails in both modes. -/
theorem c4_length_error (t : List Char) (loose : Bool)
    (hmod : (cleanWs t).length % 4 = 1)
    (hnomix : (hasUrlChars (cleanWs t) && hasStdChars (cleanWs t)) = false) :
    decodeBase64ToBytes t ⟨loose⟩ = .error .invalidLength ∧
    decodeBase64ToBytes "Y".toList ⟨false⟩ = .error .invalidLength ∧
    decodeBase64ToBytes "Y".toList ⟨true⟩ = .error .invalidLength := by
  refine ⟨?_, by decide, by decide⟩
  have htne : t ≠ [] := by
    intro he
    rw [he] at hmod
    simp [cleanWs] at hmod
  unfold decodeBase64ToBytes
  rw [if_neg htne,
    if_neg (show ¬(hasUrlChars (cleanWs t) && hasStdChars (cleanWs t)) = true by
      rw [hnomix]; exact Bool.false_ne_true)]
  dsimp only
  cases loose
  · rw [if_neg (Bool.false_ne_true), if_pos hmod]
  · rw [if_pos rfl, if_pos hmod]

/-- Witness for C4 (amended) at the spec's input `"Y"`. -/
theorem c4_length_error_witness :
    decodeBase64ToBytes "Y".toList ⟨false⟩ = .error .invalidLength :=
  (c4_length_error "Y".toList false (by decide) (by decide)).1

/-- C5: an input whose cleaned form contains both a URL-safe-only and a
standard-only character fails with the mixed-alphabet error regardless of the
`loose` option; when no URL-safe-only character is present, the standard
lookup table and alphabet are selected. -/
theorem c5_mixed_alphabet (t : List Char) (loose : Bool) :
    (hasUrlChars (cleanWs t) = true → hasStdChars (cleanWs t) = true →
      decodeBase64ToBytes t ⟨loose⟩ = .error .mixedAlphabet) ∧
    (hasUrlChars (cleanWs t) = false →
      (if hasUrlChars (cleanWs t) then B64_URL_LOOKUP else B64_STD_LOOKUP) = B64_STD_LOOKUP ∧
      (if hasUrlChars (cleanWs t) then B64_URL else B64_STD) = B64_STD) := by
  constructor
  · intro hu hs
    have htne : t ≠ [] := by
      intro he
      rw [he] at hu
      simp [cleanWs, hasUrlChars] at hu
    unfold decodeBase64ToBytes
    rw [if_neg htne]
    dsimp only
    rw [hu, hs, if_pos (show ((true && true) = true) from rfl)]
  · intro hu
    rw [hu]
    simp

/-- Witness for C5 at the concrete mixed input `"+-"`. -/
theorem c5_mixed_alphabet_witness :
    decodeBase64ToBytes "+-".toList ⟨false⟩ = .error .mixedAlphabet :=
  (c5_mixed_alphabet "+-".toList false).1 (by decide) (by decide)

/-- C8: decoding depends on the input only through its whitespace-stripped
form, so inserting whitespace anywhere never changes the result; in
particular the spec's `"aGVs\nbG8="` example decodes to the bytes of
`"hello"`. -/
theorem c8_whitespace (t u : List Char) (opts : DecodeOptions)
    (h : cleanWs t = cleanWs u) :
    decodeBase64ToBytes t opts = decodeBase64ToBytes u opts ∧
    decodeBase64ToBytes "aGVs\nbG8=".toList {} = .ok [104, 101, 108, 108, 111] ∧
    decodeBase64ToBytes "aGVsbG8=".toList {} = .ok [104, 101, 108, 108, 111] := by
  refine ⟨?_, by decide, by decide⟩
  have key : ∀ w : List Char, cleanWs w = [] → decodeBase64ToBytes w opts = .ok [] := by
    intro w hw
    by_cases hw0 : w = []
    · subst hw0
      rfl
    · unfold decodeBase64ToBytes
      rw [if_neg hw0, hw]
      obtain ⟨l⟩ := opts
      cases l <;> decide
  by_cases ht0 : t = []
  · have hu' : cleanWs u = [] := by rw [← h, ht0]; rfl
    have h1 : decodeBase64ToBytes t opts = .ok [] := by rw [ht0]; rfl
    rw [h1, key u hu']
  · by_cases hu0 : u = []
    · have ht' : cleanWs t = [] := by rw [h, hu0]; rfl
      have h1 : decodeBase64ToBytes u opts = .ok [] := by rw [hu0]; rfl
      rw [h1, key t ht']
    · unfold decodeBase64ToBytes
      rw [if_neg ht0, if_neg hu0, h]

/-- Witness for C8: the wrapped and unwrapped spec inputs decode equally. -/
theorem c8_whitespace_witness :
    decodeBase64ToBytes "aGVs\nbG8=".toList {} = decodeBase64ToBytes "aGVsbG8=".toList {} :=
  (c8_whitespace "aGVs\nbG8=".toList "aGVsbG8=".toList {} (by decide)).1

/-- C2: for inputs whose cleaned length is 2 or 3 mod 4 and whose groups
decode (loose mode succeeds), strict mode succeeds exactly when re-encoding
the decoded bytes with the detected alphabet and stripping the `=` padding
reproduces the cleaned input; otherwise strict mode fails with the
non-canonical error while loose mode succeeds. -/
theorem c2_canonical_check (t : List Char) (bs : Bytes)
    (hmod : (cleanWs t).length % 4 = 2 ∨ (cleanWs t).length % 4 = 3)
    (hloose : decodeBase64ToBytes t ⟨true⟩ = .ok bs) :
    (decodeBase64ToBytes t ⟨false⟩ = .ok bs ↔
      stripTrailingEq (encodeBytesToBase64Raw bs
        (if hasUrlChars (cleanWs t) then B64_URL else B64_STD)) = cleanWs t) ∧
    (stripTrailingEq (encodeBytesToBase64Raw bs
        (if hasUrlChars (cleanWs t) then B64_URL else B64_STD)) ≠ cleanWs t →
      decodeBase64ToBytes t ⟨false⟩ = .error .nonCanonical) := by
  have htne : t ≠ [] := by
    intro he
    rw [he] at hmod
    simp [cleanWs] at hmod
  unfold decodeBase64ToBytes at hloose
  rw [if_neg htne] at hloose
  dsimp only at hloose
  by_cases hmix : (hasUrlChars (cleanWs t) && hasStdChars (cleanWs t)) = true
  · rw [if_pos hmix] at hloose
    exact absurd hloose (by simp)
  · rw [if_neg hmix] at hloose
    rw [if_pos (show (true = true) from rfl)] at hloose
    have hstrict : decodeBase64ToBytes t ⟨false⟩ =
        (if stripTrailingEq (encodeBytesToBase64Raw bs
            (if hasUrlChars (cleanWs t) then B64_URL else B64_STD)) = cleanWs t
          then .ok bs else .error .nonCanonical) := by
      unfold decodeBase64ToBytes
      rw [if_neg htne]
      dsimp only
      rw [if_neg hmix, if_neg (Bool.false_ne_true)]
      rcases hmod with h2 | h2 <;> rw [h2] at hloose ⊢
      · rw [if_neg (show ¬ (2:Nat) = 1 by norm_num),
          if_pos (show (2:Nat) = 2 ∨ (2:Nat) = 3 from Or.inl rfl)]
        rw [if_neg (show ¬ (2:Nat) = 1 by norm_num),
          if_neg (show ¬ (2:Nat) = 0 by norm_num)] at hloose
        dsimp only at hloose ⊢
        rcases hdg : decodeGroups
            (if hasUrlChars (cleanWs t) = true then B64_URL_LOOKUP else B64_STD_LOOKUP) 0
            (cleanWs t ++ List.replicate (4 - 2) '=') with _ | allBytes
        · rw [hdg] at hloose
          simp at hloose
        · rw [hdg] at hloose
          dsimp only at hloose ⊢
          rw [if_neg (show ¬ ((!true && false) = true) by decide)] at hloose
          simp only [Except.ok.injEq] at hloose
          rw [if_pos (show ((!false && true) = true) from rfl), hloose]
      · rw [if_neg (show ¬ (3:Nat) = 1 by norm_num),
          if_pos (show (3:Nat) = 2 ∨ (3:Nat) = 3 from Or.inr rfl)]
        rw [if_neg (show ¬ (3:Nat) = 1 by norm_num),
          if_neg (show ¬ (3:Nat) = 0 by norm_num)] at hloose
        dsimp only at hloose ⊢
        rcases hdg : decodeGroups
            (if hasUrlChars (cleanWs t) = true then B64_URL_LOOKUP else B64_STD_LOOKUP) 0
            (cleanWs t ++ List.replicate (4 - 3) '=') with _ | allBytes
        · rw [hdg] at hloose
          simp at hloose
        · rw [hdg] at hloose
          dsimp only at hloose ⊢
          rw [if_neg (show ¬ ((!true && false) = true) by decide)] at hloose
          simp only [Except.ok.injEq] at hloose
          rw [if_pos (show ((!false && true) = true) from rfl), hloose]
    constructor
    · rw [hstrict]
      by_cases hc : stripTrailingEq (encodeBytesToBase64Raw bs
          (if hasUrlChars (cleanWs t) then B64_URL else B64_STD)) = cleanWs t
      · rw [if_pos hc]
        exact ⟨fun _ => hc, fun _ => rfl⟩
      · rw [if_neg hc]
        constructor
        · intro he
          exact absurd he (by simp)
        · intro hc2
          exact absurd hc2 hc
    · intro hne
      rw [hstrict, if_neg hne]

/-- Witness for C2 at the spec-style non-canonical input `"YR"` (decodes
loosely to the byte 97, whose canonical no-padding encoding is `"YQ"`). -/
theorem c2_canonical_check_witness :
    decodeBase64ToBytes "YR".toList ⟨false⟩ = .error .nonCanonical :=
  (c2_canonical_check "YR".toList [97] (by decide) (by decide)).2 (by decide)

/-! ### Chunk view of the wrapping loop -/

/-- Specification-side view: the consecutive `w`-character chunks of a
string (empty list for an empty string; the guard value for `w = 0` is
irrelevant, `wrapAt` only reaches positive widths). -/
def chunksOf (w : Nat) (l : List Char) : List (List Char) :=
  if _h : l = [] ∨ w = 0 then [] else l.take w :: chunksOf w (l.drop w)
termination_by l.length
decreasing_by
  simp only [List.length_drop]
  have h1 : l ≠ [] := fun he => _h (Or.inl he)
  have h2 : w ≠ 0 := fun he => _h (Or.inr he)
  have := List.length_pos.mpr h1
  omega

/-- Specification-side view: joining chunks with a line break after every
chunk except the last. -/
def joinNL : List (List Char) → List Char
  | [] => []
  | x :: rest => x ++ (if rest = [] then [] else '\n' :: joinNL rest)

theorem chunksOf_nil (w : Nat) : chunksOf w [] = [] := by
  rw [chunksOf, dif_pos (Or.inl rfl)]

theorem chunksOf_ne_nil (w : Nat) (l : List Char) (hl : l ≠ []) (hw : w ≠ 0) :
    chunksOf w l ≠ [] := by
  rw [chunksOf, dif_neg (by push_neg; exact ⟨hl, hw⟩)]
  simp

theorem wrapBody_eq_joinNL (input : List Char) (w : Nat) (hw : 0 < w) :
    ∀ n i, input.length - i ≤ n →
      wrapBody input w hw i = joinNL (chunksOf w (input.drop i)) := by
  intro n
  induction n with
  | zero =>
    intro i hn
    rw [wrapBody, dif_neg (by omega), List.drop_eq_nil_of_le (by omega), chunksOf_nil]
    rfl
  | succ n ih =>
    intro i hn
    by_cases hi : i < input.length
    · rw [wrapBody, dif_pos hi]
      have hne : input.drop i ≠ [] := by
        intro he
        have := congrArg List.length he
        simp only [List.length_drop, List.length_nil] at this
        omega
      rw [chunksOf, dif_neg (by push_neg; exact ⟨hne, by omega⟩), joinNL,
        List.drop_drop]
      by_cases hiw : i + w < input.length
      · have hne2 : input.drop (i + w) ≠ [] := by
          intro he
          have := congrArg List.length he
          simp only [List.length_drop, List.length_nil] at this
          omega
        rw [if_pos hiw, if_neg (chunksOf_ne_nil w _ hne2 (by omega)),
          ih (i + w) (by omega)]
        simp
      · rw [if_neg hiw,
          List.drop_eq_nil_of_le (show input.length ≤ i + w by omega), chunksOf_nil,
          if_pos rfl, ih (i + w) (by omega),
          List.drop_eq_nil_of_le (show input.length ≤ i + w by omega), chunksOf_nil]
        simp [joinNL]
    · rw [wrapBody, dif_neg hi, List.drop_eq_nil_of_le (by omega), chunksOf_nil]
      rfl

theorem wrapAt_pos_eq (t : List Char) (w : Int) (hw : 0 < w) :
    wrapAt t (some w) = joinNL (chunksOf w.toNat t) := by
  simp only [wrapAt]
  rw [dif_neg (by omega)]
  have := wrapBody_eq_joinNL t w.toNat (by omega) t.length 0 (by omega)
  rwa [List.drop_zero] at this

theorem wrapAt_small (t : List Char) (w : Int) (hw : 0 < w)
    (hlen : t.length ≤ w.toNat) : wrapAt t (some w) = t := by
  rw [wrapAt_pos_eq t w hw]
  by_cases ht : t = []
  · rw [ht, chunksOf_nil]
    rfl
  · rw [chunksOf, dif_neg (by push_neg; exact ⟨ht, by omega⟩),
      List.take_of_length_le hlen, List.drop_eq_nil_of_le hlen, chunksOf_nil, joinNL]
    simp

theorem filter_joinNL_chunks (w : Nat) (hw : w ≠ 0) :
    ∀ n (l : List Char), l.length ≤ n → '\n' ∉ l →
      (joinNL (chunksOf w l)).filter (fun c => c ≠ '\n') = l := by
  intro n
  induction n with
  | zero =>
    intro l hn _
    have : l = [] := List.eq_nil_of_length_eq_zero (by omega)
    rw [this, chunksOf_nil]
    rfl
  | succ n ih =>
    intro l hn hnl
    by_cases hl : l = []
    · rw [hl, chunksOf_nil]
      rfl
    · rw [chunksOf, dif_neg (by push_neg; exact ⟨hl, hw⟩), joinNL]
      have hfneq : ∀ c ∈ l.take w, (fun c => decide (c ≠ '\n')) c = true := by
        intro c hc
        have : c ∈ l := List.mem_of_mem_take hc
        simp only [decide_eq_true_eq]
        intro he
        rw [he] at this
        exact hnl this
      by_cases hrest : chunksOf w (l.drop w) = []
      · have hdropnil : l.drop w = [] := by
          by_contra hd
          exact chunksOf_ne_nil w _ hd hw hrest
        have hlen : l.length ≤ w := by
          have := congrArg List.length hdropnil
          simp only [List.length_drop, List.length_nil] at this
          omega
        rw [hrest, if_pos rfl, List.append_nil, List.filter_eq_self.mpr hfneq,
          List.take_of_length_le hlen]
      · rw [if_neg hrest, List.filter_append, List.filter_eq_self.mpr hfneq]
        have hstep : ('\n' :: joinNL (chunksOf w (l.drop w))).filter
            (fun c => c ≠ '\n') =
            (joinNL (chunksOf w (l.drop w))).filter (fun c => c ≠ '\n') := by
          simp
        rw [hstep, ih (l.drop w) (by
            simp only [List.length_drop]
            have := List.length_pos.mpr hl
            omega)
          (fun hc => hnl (List.mem_of_mem_drop hc)), List.take_append_drop]

/-- C7 (counterexample to the claim as stated): for the input consisting of a
single line break and width 1, deleting all line breaks from the wrapped
output yields the empty string, not the input. -/
theorem c7_counterexample :
    (wrapAt ['\n'] (some 1)).filter (fun c => c ≠ '\n') = [] ∧
    ('\n' :: ([] : List Char)) ≠ [] := by
  constructor
  · rw [wrapAt_small ['\n'] 1 (by norm_num) (by norm_num)]
    rfl
  · simp

/-- C7 (amended): `wrapAt` returns the input unchanged for an absent, zero or
negative width; for positive `w` it joins the consecutive `w`-character
chunks with single line breaks (hence no break after the last chunk and no
break at all when the input fits in one chunk); and deleting all line breaks
recovers the input for every input that contains no line break itself. -/
theorem c7_wrap (t : List Char) (w : Int) :
    wrapAt t none = t ∧
    (w ≤ 0 → wrapAt t (some w) = t) ∧
    (0 < w → wrapAt t (some w) = joinNL (chunksOf w.toNat t)) ∧
    (0 < w → t.length ≤ w.toNat → wrapAt t (some w) = t) ∧
    (0 < w → '\n' ∉ t → (wrapAt t (some w)).filter (fun c => c ≠ '\n') = t) := by
  refine ⟨rfl, fun hw => ?_, fun hw => wrapAt_pos_eq t w hw,
    fun hw hl => wrapAt_small t w hw hl, fun hw hnl => ?_⟩
  · simp only [wrapAt]
    rw [dif_pos hw]
  · rw [wrapAt_pos_eq t w hw]
    exact filter_joinNL_chunks w.toNat (by omega) t.length t le_rfl hnl

/-- Witness for C7 (amended) at a concrete string and width. -/
theorem c7_wrap_witness :
    (wrapAt "abcd".toList (some 3)).filter (fun c => c ≠ '\n') = "abcd".toList :=
  (c7_wrap "abcd".toList 3).2.2.2.2 (by norm_num) (by decide)

/-! ### Invalid characters abort the decode loop at a group boundary -/

/-- The `=`-padded form of a cleaned input as built by decode.ts before the
group loop (an empty suffix when the cleaned length is already a multiple
of 4). -/
def padTo4 (cleaned : List Char) : List Char :=
  cleaned ++ List.replicate ((4 - cleaned.length % 4) % 4) '='

theorem decodeGroups_err (lk : Char → Option Nat) :
    ∀ n (l : List Char) (i : Nat), l.length ≤ n → 4 ∣ l.length →
      (∃ j, j < l.length ∧ lk (l.getD j 'A') = none ∧ (2 ≤ j % 4 → l.getD j 'A' ≠ '=')) →
      ∃ g, decodeGroups lk i l = .error (.invalidCharacter (i + 4 * g)) ∧
        ∃ j, 4 * g ≤ j ∧ j < 4 * g + 4 ∧ j < l.length ∧
          lk (l.getD j 'A') = none ∧ (2 ≤ j % 4 → l.getD j 'A' ≠ '=') := by
  intro n
  induction n with
  | zero =>
    intro l i hn _ hbad
    obtain ⟨j, hj, _⟩ := hbad
    omega
  | succ n ih =>
    intro l i hn hdvd hbad
    rcases l with _ | ⟨p0, _ | ⟨p1, _ | ⟨p2, _ | ⟨p3, rest⟩⟩⟩⟩
    · obtain ⟨j, hj, _⟩ := hbad
      simp at hj
    · exfalso
      simp only [List.length_cons, List.length_nil] at hdvd
      omega
    · exfalso
      simp only [List.length_cons, List.length_nil] at hdvd
      omega
    · exfalso
      simp only [List.length_cons, List.length_nil] at hdvd
      omega
    · have hdvd4 : 4 ∣ rest.length := by
        simp only [List.length_cons] at hdvd
        omega
      by_cases hfail : lk p0 = none ∨ lk p1 = none ∨
          (if p2 = '=' then some 0 else lk p2) = none ∨
          (if p3 = '=' then some 0 else lk p3) = none
      · have herr : decodeGroups lk i (p0 :: p1 :: p2 :: p3 :: rest) =
            .error (.invalidCharacter i) := by
          rcases h0 : lk p0 with _ | a0 <;>
            rcases h1 : lk p1 with _ | a1 <;>
            rcases h2 : (if p2 = '=' then some 0 else lk p2) with _ | c0 <;>
            rcases h3 : (if p3 = '=' then some 0 else lk p3) with _ | d0 <;>
            simp only [decodeGroups, h0, h1, h2, h3] <;> try rfl
          exfalso
          rcases hfail with h | h | h | h <;> simp_all
        refine ⟨0, by simpa using herr, ?_⟩
        rcases hfail with h | h | h | h
        · exact ⟨0, by omega, by omega, by simp, by simpa using h,
            fun hh => absurd hh (by norm_num)⟩
        · exact ⟨1, by omega, by omega, by simp, by simpa using h,
            fun hh => absurd hh (by norm_num)⟩
        · by_cases hp2 : p2 = '='
          · rw [if_pos hp2] at h
            exact absurd h (by simp)
          · rw [if_neg hp2] at h
            exact ⟨2, by omega, by omega, by simp, by simpa using h,
              fun _ => by simpa using hp2⟩
        · by_cases hp3 : p3 = '='
          · rw [if_pos hp3] at h
            exact absurd h (by simp)
          · rw [if_neg hp3] at h
            exact ⟨3, by omega, by omega, by simp, by simpa using h,
              fun _ => by simpa using hp3⟩
      · push_neg at hfail
        obtain ⟨h0, h1, h2, h3⟩ := hfail
        obtain ⟨a0, ha0⟩ := Option.ne_none_iff_exists'.mp h0
        obtain ⟨a1, ha1⟩ := Option.ne_none_iff_exists'.mp h1
        obtain ⟨c0, hc0⟩ := Option.ne_none_iff_exists'.mp h2
        obtain ⟨d0, hd0⟩ := Option.ne_none_iff_exists'.mp h3
        have hshift : ∀ k : Nat,
            (p0 :: p1 :: p2 :: p3 :: rest).getD (k + 4) 'A' = rest.getD k 'A' := by
          intro k
          rw [show (p0 :: p1 :: p2 :: p3 :: rest) = [p0, p1, p2, p3] ++ rest from rfl,
            List.getD_append_right _ _ _ _ (by simp)]
          simp
        obtain ⟨j, hjlen, hjnone, hjeq⟩ := hbad
        have hj4 : 4 ≤ j := by
          by_contra hlt
          push_neg at hlt
          interval_cases j
          · rw [show (p0 :: p1 :: p2 :: p3 :: rest).getD 0 'A' = p0 from rfl] at hjnone
            rw [hjnone] at ha0
            exact Option.noConfusion ha0
          · rw [show (p0 :: p1 :: p2 :: p3 :: rest).getD 1 'A' = p1 from rfl] at hjnone
            rw [hjnone] at ha1
            exact Option.noConfusion ha1
          · rw [show (p0 :: p1 :: p2 :: p3 :: rest).getD 2 'A' = p2 from rfl] at hjnone hjeq
            have hp2 : p2 ≠ '=' := hjeq (by norm_num)
            rw [if_neg hp2, hjnone] at hc0
            exact Option.noConfusion hc0
          · rw [show (p0 :: p1 :: p2 :: p3 :: rest).getD 3 'A' = p3 from rfl] at hjnone hjeq
            have hp3 : p3 ≠ '=' := hjeq (by norm_num)
            rw [if_neg hp3, hjnone] at hd0
            exact Option.noConfusion hd0
        obtain ⟨j2, rfl⟩ : ∃ j2, j = j2 + 4 := ⟨j - 4, by omega⟩
        have hlen : (p0 :: p1 :: p2 :: p3 :: rest).length = rest.length + 4 := by
          simp only [List.length_cons]
        obtain ⟨g, hg, j3, hg1, hg2, hg3, hg4, hg5⟩ := ih rest (i + 4)
          (by rw [hlen] at hn; omega) hdvd4
          ⟨j2, by rw [hlen] at hjlen; omega, by rwa [hshift] at hjnone,
            fun hh => by
              have := hjeq (by omega)
              rwa [hshift] at this⟩
        refine ⟨g + 1, ?_, j3 + 4, by omega, by omega,
          by rw [hlen]; omega, by rwa [hshift], fun hh => by
            rw [hshift]
            exact hg5 (by omega)⟩
        simp only [decodeGroups, ha0, ha1, hc0, hd0, hg]
        rw [show i + 4 + 4 * g = i + 4 * (g + 1) by ring]

/-- C6 (counterexample to the claim as stated): decoding `"AB$A"` fails with
an invalid-character error carrying position 0, yet the character at
position 0 is `'A'` — a valid non-`=` character — while the offending `'$'`
sits at position 2: the error does not identify the position of the
offending character itself. -/
theorem c6_counterexample :
    decodeBase64ToBytes "AB$A".toList {} = .error (.invalidCharacter 0) ∧
    B64_STD_LOOKUP 'A' = some 0 ∧ ('A' : Char) ≠ '=' ∧
    "AB$A".toList.getD 0 'A' = 'A' ∧
    "AB$A".toList.getD 2 'A' = '$' ∧
    B64_STD_LOOKUP '$' = none := by decide

/-- C6 (amended): when alphabet detection succeeds, the length check passes
and, in strict mode with a length that is a multiple of 4, the `=`-placement
validation passes, an input whose padded form contains a non-`=` character
absent from the selected lookup table fails with an invalid-character error
whose position is the start index (a multiple of 4) of the 4-character group
containing an offending character. -/
theorem c6_invalid_character (t : List Char) (opts : DecodeOptions)
    (hmix : (hasUrlChars (cleanWs t) && hasStdChars (cleanWs t)) = false)
    (hmod : (cleanWs t).length % 4 ≠ 1)
    (hvalid : opts.loose = false → (cleanWs t).length % 4 = 0 →
      validEqTail (cleanWs t) = true)
    (hbad : ∃ j, j < (padTo4 (cleanWs t)).length ∧
      (padTo4 (cleanWs t)).getD j 'A' ≠ '=' ∧
      (if hasUrlChars (cleanWs t) then B64_URL_LOOKUP else B64_STD_LOOKUP)
        ((padTo4 (cleanWs t)).getD j 'A') = none) :
    ∃ p, decodeBase64ToBytes t opts = .error (.invalidCharacter p) ∧ p % 4 = 0 ∧
      ∃ j, p ≤ j ∧ j < p + 4 ∧ j < (padTo4 (cleanWs t)).length ∧
        (if hasUrlChars (cleanWs t) then B64_URL_LOOKUP else B64_STD_LOOKUP)
          ((padTo4 (cleanWs t)).getD j 'A') = none ∧
        (2 ≤ j % 4 → (padTo4 (cleanWs t)).getD j 'A' ≠ '=') := by
  have hcne : cleanWs t ≠ [] := by
    intro he
    obtain ⟨j, hj, _⟩ := hbad
    rw [padTo4, he] at hj
    simp at hj
  have htne : t ≠ [] := fun he => hcne (by rw [he]; rfl)
  have hdvd : 4 ∣ (padTo4 (cleanWs t)).length := by
    rw [padTo4]
    simp only [List.length_append, List.length_replicate]
    omega
  obtain ⟨g, hg, hwin⟩ := decodeGroups_err
    (if hasUrlChars (cleanWs t) then B64_URL_LOOKUP else B64_STD_LOOKUP)
    (padTo4 (cleanWs t)).length (padTo4 (cleanWs t)) 0 le_rfl hdvd
    (by
      obtain ⟨j, hj1, hj2, hj3⟩ := hbad
      exact ⟨j, hj1, hj3, fun _ => hj2⟩)
  simp only [Nat.zero_add] at hg
  refine ⟨4 * g, ?_, by omega, hwin⟩
  unfold decodeBase64ToBytes
  rw [if_neg htne]
  dsimp only
  rw [if_neg (show ¬(hasUrlChars (cleanWs t) && hasStdChars (cleanWs t)) = true by
    rw [hmix]; exact Bool.false_ne_true)]
  have h03 : (cleanWs t).length % 4 = 0 ∨ (cleanWs t).length % 4 = 2 ∨
      (cleanWs t).length % 4 = 3 := by omega
  obtain ⟨l⟩ := opts
  cases l
  · -- strict mode
    rw [if_neg (Bool.false_ne_true), if_neg hmod]
    rcases h03 with h4 | h4 | h4
    · have hpad0 : padTo4 (cleanWs t) = cleanWs t := by
        rw [padTo4, h4]
        simp
      rw [hpad0] at hg
      rw [if_neg (by omega : ¬((cleanWs t).length % 4 = 2 ∨ (cleanWs t).length % 4 = 3)),
        if_pos (hvalid rfl h4)]
      dsimp only
      rw [hg]
    · have hpad2 : cleanWs t ++ List.replicate (4 - (cleanWs t).length % 4) '=' =
          padTo4 (cleanWs t) := by
        rw [padTo4, h4]
      rw [if_pos (Or.inl h4)]
      dsimp only
      rw [hpad2, hg]
    · have hpad3 : cleanWs t ++ List.replicate (4 - (cleanWs t).length % 4) '=' =
          padTo4 (cleanWs t) := by
        rw [padTo4, h4]
      rw [if_pos (Or.inr h4)]
      dsimp only
      rw [hpad3, hg]
  · -- loose mode
    rw [if_pos rfl, if_neg hmod]
    rcases h03 with h4 | h4 | h4
    · have hpad0 : padTo4 (cleanWs t) = cleanWs t := by
        rw [padTo4, h4]
        simp
      rw [hpad0] at hg
      rw [if_pos h4]
      dsimp only
      rw [hg]
    · have hpad2 : cleanWs t ++ List.replicate (4 - (cleanWs t).length % 4) '=' =
          padTo4 (cleanWs t) := by
        rw [padTo4, h4]
      rw [if_neg (by omega : ¬ (cleanWs t).length % 4 = 0)]
      dsimp only
      rw [hpad2, hg]
    · have hpad3 : cleanWs t ++ List.replicate (4 - (cleanWs t).length % 4) '=' =
          padTo4 (cleanWs t) := by
        rw [padTo4, h4]
      rw [if_neg (by omega : ¬ (cleanWs t).length % 4 = 0)]
      dsimp only
      rw [hpad3, hg]

/-- Witness for C6 (amended) at the input `"AB$A"`: the offending `'$'` at
position 2 produces the invalid-character error at group start 0. -/
theorem c6_invalid_character_witness :
    ∃ p, decodeBase64ToBytes "AB$A".toList {} = .error (.invalidCharacter p) ∧
      p % 4 = 0 ∧
      ∃ j, p ≤ j ∧ j < p + 4 ∧ j < (padTo4 (cleanWs "AB$A".toList)).length ∧
        (if hasUrlChars (cleanWs "AB$A".toList) then B64_URL_LOOKUP else B64_STD_LOOKUP)
          ((padTo4 (cleanWs "AB$A".toList)).getD j 'A') = none ∧
        (2 ≤ j % 4 → (padTo4 (cleanWs "AB$A".toList)).getD j 'A' ≠ '=') :=
  c6_invalid_character "AB$A".toList {} (by decide) (by decide)
    (fun _ _ => by decide) ⟨2, by decide, by decide, by decide⟩

end UseBase64
